import Mathlib

/-!
# AVL tree (`avl.hpp`): a heap-level embedding

The C++ class `AvlTree<T>` manipulates raw owning pointers, several of them
through reference parameters (`AvlNode<T>* & t`).  The embedding therefore
keeps an explicit heap of nodes addressed by natural numbers; a pointer is an
`Option Nat` (`none` is `nullptr`) and a reference parameter is a `Ref`, the
place a pointer is stored in.  Every function that dereferences a pointer is
fallible (`Except Fault`), and every recursive function or loop is driven by
a fuel argument, because nothing in the code prevents the links from forming
a cycle.
-/

namespace Avl

/-- Ways an execution can fail to produce a result. -/
inductive Fault where
  | nullDeref
  | dangling
  | outOfFuel
deriving DecidableEq, Repr

/-- A pointer `AvlNode<T>*`: `none` is `nullptr`, `some a` is the address `a`. -/
abbrev Ptr := Option Nat

/-- The class `AvlNode<T>` (avl.hpp 10-21). -/
structure AvlNode (T : Type) where
  element : T
  left : Ptr
  right : Ptr
  height : Int
deriving DecidableEq, Repr

/-- The class `AvlTree<T>` (avl.hpp 107-109) together with the heap its nodes
live in.  A heap cell holding `none` has been freed by `delete`. -/
structure AvlTree (T : Type) where
  ITEM_NOT_FOUND : T
  root : Ptr
  heap : List (Option (AvlNode T))
deriving DecidableEq, Repr

/-- The place a reference parameter `AvlNode<T>* &` is bound to: the `root`
member, the `left` or `right` member of the node at an address, or a local
variable of the caller (which the callee only reads). -/
inductive Ref where
  | root
  | left (a : Nat)
  | right (a : Nat)
  | loc (p : Ptr)
deriving DecidableEq, Repr

section Model

variable {T : Type}

/-- Dereference `p`: the node `*p`. -/
def AvlTree.load (s : AvlTree T) : Ptr → Except Fault (AvlNode T)
  | none => .error .nullDeref
  | some a =>
    match s.heap[a]? with
    | some (some n) => .ok n
    | _ => .error .dangling

/-- Overwrite the node at address `a`. -/
def AvlTree.store (s : AvlTree T) (a : Nat) (n : AvlNode T) : AvlTree T :=
  { s with heap := s.heap.set a (some n) }

/-- Apply `f` to the node `*p` in place (an assignment to a member of `*p`). -/
def AvlTree.modify (s : AvlTree T) (p : Ptr) (f : AvlNode T → AvlNode T) :
    Except Fault (AvlTree T) :=
  match p with
  | none => .error .nullDeref
  | some a => do
    let n ← s.load (some a)
    pure (s.store a (f n))

/-- The expression `new AvlNode<T>(x, lt, rt, h)`: the fresh address and the new heap. -/
def AvlTree.alloc (s : AvlTree T) (n : AvlNode T) : Nat × AvlTree T :=
  (s.heap.length, { s with heap := s.heap ++ [some n] })

/-- The statement `delete p`. -/
def AvlTree.free (s : AvlTree T) (p : Ptr) : Except Fault (AvlTree T) :=
  match p with
  | none => .ok s
  | some a => do
    let _ ← s.load (some a)
    pure { s with heap := s.heap.set a none }

/-- Read the pointer stored in the place `r`. -/
def AvlTree.read (s : AvlTree T) : Ref → Except Fault Ptr
  | .root => .ok s.root
  | .left a => do let n ← s.load (some a); pure n.left
  | .right a => do let n ← s.load (some a); pure n.right
  | .loc p => .ok p

/-- Assign the pointer `v` to the place `r`. -/
def AvlTree.write (s : AvlTree T) : Ref → Ptr → Except Fault (AvlTree T)
  | .root, v => .ok { s with root := v }
  | .left a, v => s.modify (some a) (fun n => { n with left := v })
  | .right a, v => s.modify (some a) (fun n => { n with right := v })
  | .loc _, _ => .ok s

/-- The place `p->left`. -/
def leftOf : Ptr → Except Fault Ref
  | none => .error .nullDeref
  | some a => .ok (.left a)

/-- The place `p->right`. -/
def rightOf : Ptr → Except Fault Ref
  | none => .error .nullDeref
  | some a => .ok (.right a)

/-- `int max(int a, int b)` (avl.hpp 257). -/
def max (a b : Int) : Int := if a > b then a else b

/-- `int height(AvlNode<T>* t)` (avl.hpp 265-268): the cached height, `-1` for `nullptr`. -/
def height (s : AvlTree T) : Ptr → Except Fault Int
  | none => .ok (-1)
  | some a => do let n ← s.load (some a); pure n.height

/-- `int balance_factor(AvlNode<T>* t)` (avl.hpp 260-263). -/
def balance_factor (s : AvlTree T) (t : Ptr) : Except Fault Int := do
  let n ← s.load t
  let hr ← height s n.right
  let hl ← height s n.left
  pure (hr - hl)

/-- `void fixheight(AvlNode<T>* t)` (avl.hpp 269-274). -/
def fixheight (s : AvlTree T) (t : Ptr) : Except Fault (AvlTree T) := do
  let n ← s.load t
  let h1 ← height s n.left
  let h2 ← height s n.right
  s.modify t (fun m => { m with height := max h1 h2 + 1 })

/-- `AvlNode<T>* rotate_r(AvlNode<T>* & node)` (avl.hpp 299-308).  Line 302
assigns `child->left` (not `node->left`), and `node` itself is never assigned. -/
def rotate_r (node : Ref) (s : AvlTree T) : Except Fault (Ptr × AvlTree T) := do
  let child := (← s.load (← s.read node)).left
  let c ← s.load child
  let s ← s.modify child (fun m => { m with left := c.right })
  let nd ← s.read node
  let s ← s.modify child (fun m => { m with right := nd })
  let s ← fixheight s (← s.read node)
  let s ← fixheight s child
  pure (child, s)

/-- `AvlNode<T>* rotate_l(AvlNode<T>* & node)` (avl.hpp 309-318). -/
def rotate_l (node : Ref) (s : AvlTree T) : Except Fault (Ptr × AvlTree T) := do
  let child := (← s.load (← s.read node)).right
  let c ← s.load child
  let s ← s.modify (← s.read node) (fun m => { m with right := c.left })
  let nd ← s.read node
  let s ← s.modify child (fun m => { m with left := nd })
  let s ← fixheight s (← s.read node)
  let s ← fixheight s child
  pure (child, s)

/-- `AvlNode<T>* rotate_lr(AvlNode<T>* & node)` (avl.hpp 319-323). -/
def rotate_lr (node : Ref) (s : AvlTree T) : Except Fault (Ptr × AvlTree T) := do
  let (p, s) ← rotate_l (← leftOf (← s.read node)) s
  let s ← s.modify (← s.read node) (fun m => { m with left := p })
  rotate_r node s

/-- `AvlNode<T>* rotate_rl(AvlNode<T>* & node)` (avl.hpp 324-328). -/
def rotate_rl (node : Ref) (s : AvlTree T) : Except Fault (Ptr × AvlTree T) := do
  let (p, s) ← rotate_r (← rightOf (← s.read node)) s
  let s ← s.modify (← s.read node) (fun m => { m with right := p })
  rotate_l node s

variable [LT T] [∀ a b : T, Decidable (a < b)]

/-- Lines 149-150 of `insert`, reached by every path that did not return
early: `t->height = max(height(t->left), height(t->right)) + 1; return true;`. -/
def insert_done (t : Ref) (s : AvlTree T) : Except Fault (Bool × AvlTree T) := do
  let n ← s.load (← s.read t)
  let hl ← height s n.left
  let hr ← height s n.right
  let s ← s.modify (← s.read t) (fun m => { m with height := max hl hr + 1 })
  pure (true, s)

/-- Lines 128-133 of `insert`: the rebalancing test after a successful
insertion into the left subtree.  The pointers returned by the rotations are
discarded, as in the source. -/
def insert_fix_left (x : T) (t : Ref) (s : AvlTree T) : Except Fault (AvlTree T) := do
  let n ← s.load (← s.read t)
  let hl ← height s n.left
  let hr ← height s n.right
  if hl - hr = 2 then
    let l ← s.load n.left
    if x < l.element then
      let (_, s) ← rotate_r t s
      pure s
    else
      let (_, s) ← rotate_lr t s
      pure s
  else
    pure s

/-- Lines 139-144 of `insert`: the rebalancing test after a successful
insertion into the right subtree. -/
def insert_fix_right (x : T) (t : Ref) (s : AvlTree T) : Except Fault (AvlTree T) := do
  let n ← s.load (← s.read t)
  let hr ← height s n.right
  let hl ← height s n.left
  if hr - hl = 2 then
    let r ← s.load n.right
    if r.element < x then
      let (_, s) ← rotate_l t s
      pure s
    else
      let (_, s) ← rotate_rl t s
      pure s
  else
    pure s

/-- `bool insert(const T & x, AvlNode<T> * & t)` (avl.hpp 119-151).  The fuel
bounds the recursion depth. -/
def insert (x : T) : Nat → Ref → AvlTree T → Except Fault (Bool × AvlTree T)
  | 0, _, _ => .error .outOfFuel
  | fuel + 1, t, s => do
    match ← s.read t with
    | none =>
      let (a, s) := s.alloc ⟨x, none, none, 0⟩
      let s ← s.write t (some a)
      insert_done t s
    | some a =>
      let n ← s.load (some a)
      if x < n.element then
        match ← insert x fuel (.left a) s with
        | (false, s) => pure (false, s)
        | (true, s) =>
          let s ← insert_fix_left x t s
          insert_done t s
      else if n.element < x then
        match ← insert x fuel (.right a) s with
        | (false, s) => pure (false, s)
        | (true, s) =>
          let s ← insert_fix_right x t s
          insert_done t s
      else
        pure (false, s)

/-- `AvlNode<T>* findMin(AvlNode<T>* t)` (avl.hpp 175-183); the fuel bounds
the number of loop tests. -/
def findMin (s : AvlTree T) : Nat → Ptr → Except Fault Ptr
  | 0, _ => .error .outOfFuel
  | _ + 1, none => .ok none
  | fuel + 1, some a => do
    let n ← s.load (some a)
    match n.left with
    | none => pure (some a)
    | some b => findMin s fuel (some b)

/-- `AvlNode<T>* findMax(AvlNode<T>* t)` (avl.hpp 184-192). -/
def findMax (s : AvlTree T) : Nat → Ptr → Except Fault Ptr
  | 0, _ => .error .outOfFuel
  | _ + 1, none => .ok none
  | fuel + 1, some a => do
    let n ← s.load (some a)
    match n.right with
    | none => pure (some a)
    | some b => findMax s fuel (some b)

/-- `AvlNode<T>* find(const T & x, AvlNode<T>* t)` (avl.hpp 193-204). -/
def find (s : AvlTree T) (x : T) : Nat → Ptr → Except Fault Ptr
  | 0, _ => .error .outOfFuel
  | _ + 1, none => .ok none
  | fuel + 1, some a => do
    let n ← s.load (some a)
    if x < n.element then find s x fuel n.left
    else if n.element < x then find s x fuel n.right
    else pure (some a)

/-- `const T & elementAt(AvlNode<T>* t)` (avl.hpp 111-117). -/
def elementAt (s : AvlTree T) : Ptr → Except Fault T
  | none => .ok s.ITEM_NOT_FOUND
  | some a => do let n ← s.load (some a); pure n.element

/-- `AvlNode<T>* balance(AvlNode<T> * & n)` (avl.hpp 275-291).  Both tests
compare the balance factor with `2`, as in the source. -/
def balance (n : Ref) (s : AvlTree T) : Except Fault (Ptr × AvlTree T) := do
  let s ← fixheight s (← s.read n)
  let bf ← balance_factor s (← s.read n)
  if bf = 2 then
    let r := (← s.load (← s.read n)).right
    let bfr ← balance_factor s r
    let s ← (if bfr < 0 then do
        let (p, s) ← rotate_l (← rightOf (← s.read n)) s
        s.modify (← s.read n) (fun m => { m with right := p })
      else pure s)
    rotate_r n s
  else
    let bf ← balance_factor s (← s.read n)
    if bf = 2 then
      let l := (← s.load (← s.read n)).left
      let bfl ← balance_factor s l
      let s ← (if bfl > 0 then do
          let (p, s) ← rotate_r (← leftOf (← s.read n)) s
          s.modify (← s.read n) (fun m => { m with left := p })
        else pure s)
      rotate_l n s
    else
      let p ← s.read n
      pure (p, s)

/-- `AvlNode<T>* balance_min(AvlNode<T> * & temp)` (avl.hpp 292-298). -/
def balance_min : Nat → Ref → AvlTree T → Except Fault (Ptr × AvlTree T)
  | 0, _, _ => .error .outOfFuel
  | fuel + 1, temp, s => do
    let n ← s.load (← s.read temp)
    match n.left with
    | none => pure (n.right, s)
    | some _ =>
      let (p, s) ← balance_min fuel (← leftOf (← s.read temp)) s
      let s ← s.modify (← s.read temp) (fun m => { m with left := p })
      balance temp s

/-- `AvlNode<T>* remove(const T & x, AvlNode<T> * & t)` (avl.hpp 152-174).
In `t->left = remove(x, t->left)` the call is evaluated before the place
assigned to. -/
def remove (x : T) : Nat → Ref → AvlTree T → Except Fault (Ptr × AvlTree T)
  | 0, _, _ => .error .outOfFuel
  | fuel + 1, t, s => do
    match ← s.read t with
    | none => pure (none, s)
    | some a =>
      let n ← s.load (some a)
      if x < n.element then
        let (p, s) ← remove x fuel (.left a) s
        let s ← s.modify (← s.read t) (fun m => { m with left := p })
        balance t s
      else if n.element < x then
        let (p, s) ← remove x fuel (.right a) s
        let s ← s.modify (← s.read t) (fun m => { m with right := p })
        balance t s
      else
        let l := n.left
        let r := n.right
        let s ← s.free (some a)
        match r with
        | none => pure (l, s)
        | some _ =>
          let min ← findMin s fuel r
          let (p, s) ← balance_min fuel (.loc r) s
          let s ← s.modify min (fun m => { m with right := p })
          let s ← s.modify min (fun m => { m with left := l })
          balance (.loc min) s

/-- `void printTree(AvlNode<T>* t, std::ostream & stream)` (avl.hpp 215-223):
left subtree, element, right subtree.  The stream is the list of elements
written so far.  The recursive calls of the source (lines 219 and 221) leave
the stream argument out, which no overload accepts; here they pass the
stream on. -/
def printTree (s : AvlTree T) : Nat → Ptr → List T → Except Fault (List T)
  | 0, _, _ => .error .outOfFuel
  | _ + 1, none, stream => .ok stream
  | fuel + 1, some a, stream => do
    let n ← s.load (some a)
    let stream ← printTree s fuel n.left stream
    printTree s fuel n.right (stream ++ [n.element])

/-- `bool isBalanced(AvlNode<T>* n)` (avl.hpp 232-253); `&&` short-circuits. -/
def isBalanced (s : AvlTree T) : Nat → Ptr → Except Fault Bool
  | 0, _ => .error .outOfFuel
  | _ + 1, none => .ok true
  | fuel + 1, some a => do
    let n ← s.load (some a)
    let lh ← height s n.left
    let rh ← height s n.right
    let hdif := if lh > rh then lh - rh else rh - lh
    if hdif ≤ 1 then
      if ← isBalanced s fuel n.left then
        if ← isBalanced s fuel n.right then pure true else pure false
      else pure false
    else pure false

/-- `AvlNode<T>* clone(AvlNode<T>* t)` (avl.hpp 224-231).  The two recursive
calls are made left to right and the new node is allocated after them;
`*t` is read once, since `clone` writes to fresh cells only. -/
def clone : Nat → AvlTree T → Ptr → Except Fault (Ptr × AvlTree T)
  | 0, _, _ => .error .outOfFuel
  | _ + 1, s, none => .ok (none, s)
  | fuel + 1, s, some a => do
    let n ← s.load (some a)
    let (l, s) ← clone fuel s n.left
    let (r, s) ← clone fuel s n.right
    let (b, s) := s.alloc ⟨n.element, l, r, n.height⟩
    pure (some b, s)

/-! ### Public operations -/

/-- `explicit AvlTree(const T & notFound)` (avl.hpp 42-43). -/
def AvlTree.construct (notFound : T) : AvlTree T := ⟨notFound, none, []⟩

/-- `const T & findMin()` (avl.hpp 55-58). -/
def AvlTree.findMin (s : AvlTree T) (fuel : Nat) : Except Fault T := do
  elementAt s (← Avl.findMin s fuel s.root)

/-- `const T & findMax()` (avl.hpp 59-62). -/
def AvlTree.findMax (s : AvlTree T) (fuel : Nat) : Except Fault T := do
  elementAt s (← Avl.findMax s fuel s.root)

/-- `const T & find(const T & x)` (avl.hpp 63-66). -/
def AvlTree.find (s : AvlTree T) (fuel : Nat) (x : T) : Except Fault T := do
  elementAt s (← Avl.find s x fuel s.root)

/-- `bool isEmpty()` (avl.hpp 67-70). -/
def AvlTree.isEmpty (s : AvlTree T) : Bool := s.root.isNone

/-- `void insert(const T & x)` (avl.hpp 83-86): the flag returned by the
recursive insert is dropped. -/
def AvlTree.insert (s : AvlTree T) (fuel : Nat) (x : T) : Except Fault (AvlTree T) := do
  let (_, s) ← Avl.insert x fuel .root s
  pure s

/-- `void remove(const T & x)` (avl.hpp 87-90): `root = remove(x, root)`. -/
def AvlTree.remove (s : AvlTree T) (fuel : Nat) (x : T) : Except Fault (AvlTree T) := do
  let (p, s) ← Avl.remove x fuel .root s
  pure { s with root := p }

/-- `bool isBalanced()` (avl.hpp 102-105). -/
def AvlTree.isBalanced (s : AvlTree T) (fuel : Nat) : Except Fault Bool :=
  Avl.isBalanced s fuel s.root

end Model

/-! ### Trees laid out in the heap

The invariants of the specification are stated on the shape a pointer
structure has when it is a tree: `Tree.Layout s t` says that the heap of `s`
holds the tree `t`, node by node, at the addresses recorded in `t`. -/

/-- A finite binary tree with, at each node, its address, element and cached height. -/
inductive Tree (T : Type) where
  | nil
  | node (a : Nat) (l : Tree T) (x : T) (h : Int) (r : Tree T)
deriving DecidableEq, Repr

section Shape

variable {T : Type}

/-- The pointer to the root node of the tree. -/
def Tree.ptr : Tree T → Ptr
  | .nil => none
  | .node a _ _ _ _ => some a

/-- The cached height of the root node, `-1` for the empty tree. -/
def Tree.cached : Tree T → Int
  | .nil => -1
  | .node _ _ _ h _ => h

/-- The elements in order: left subtree, element, right subtree. -/
def Tree.elems : Tree T → List T
  | .nil => []
  | .node _ l x _ r => l.elems ++ x :: r.elems

/-- Number of nodes on the longest path from the root down. -/
def Tree.depth : Tree T → Nat
  | .nil => 0
  | .node _ l _ _ r => Max.max l.depth r.depth + 1

/-- The height of the specification: `-1` for the empty tree, `0` for a leaf. -/
def Tree.height : Tree T → Int
  | .nil => -1
  | .node _ l _ _ r => Avl.max l.height r.height + 1

/-- The element of the leftmost node. -/
def Tree.first : Tree T → Option T
  | .nil => none
  | .node _ .nil x _ _ => some x
  | .node _ l _ _ _ => l.first

/-- The element of the rightmost node. -/
def Tree.last : Tree T → Option T
  | .nil => none
  | .node _ _ x _ .nil => some x
  | .node _ _ _ _ r => r.last

/-- The heap of `s` holds the tree `t`. -/
def Tree.Layout (s : AvlTree T) : Tree T → Prop
  | .nil => True
  | .node a l x h r =>
    s.heap[a]? = some (some ⟨x, l.ptr, r.ptr, h⟩) ∧ l.Layout s ∧ r.Layout s

/-- BST property: at every node the left elements are less and the right
elements greater than the node's element. -/
def Tree.BST [LT T] : Tree T → Prop
  | .nil => True
  | .node _ l x _ r =>
    (∀ y ∈ l.elems, y < x) ∧ (∀ y ∈ r.elems, x < y) ∧ l.BST ∧ r.BST

/-- AVL property: at every node the heights of the two subtrees differ by at most one. -/
def Tree.Balanced : Tree T → Prop
  | .nil => True
  | .node _ l _ _ r =>
    l.height - r.height ≤ 1 ∧ r.height - l.height ≤ 1 ∧ l.Balanced ∧ r.Balanced

/-- Every cached height is the height of the subtree below it. -/
def Tree.HeightsCorrect : Tree T → Prop
  | .nil => True
  | .node a l x h r =>
    h = (Tree.node a l x h r).height ∧ l.HeightsCorrect ∧ r.HeightsCorrect

/-- The addresses of the nodes, root first. -/
def Tree.addrs : Tree T → List Nat
  | .nil => []
  | .node a l _ _ r => a :: (l.addrs ++ r.addrs)

/-- At every node the cached heights of the two children (`-1` for an absent
child) differ by at most one: the test `isBalanced` makes. -/
def Tree.CachedBalanced : Tree T → Prop
  | .nil => True
  | .node _ l _ _ r =>
    l.cached - r.cached ≤ 1 ∧ r.cached - l.cached ≤ 1 ∧ l.CachedBalanced ∧ r.CachedBalanced

/-- Same shape, same element and same cached height at every position; the
addresses may differ. -/
def Tree.Same : Tree T → Tree T → Prop
  | .nil, .nil => True
  | .node _ l x h r, .node _ l2 x2 h2 r2 => x = x2 ∧ h = h2 ∧ l.Same l2 ∧ r.Same r2
  | _, _ => False

/-- Same shape and same element at every position; addresses and cached
heights may differ. -/
def Tree.SameShape : Tree T → Tree T → Prop
  | .nil, .nil => True
  | .node _ l x _ r, .node _ l2 x2 _ r2 => x = x2 ∧ l.SameShape l2 ∧ r.SameShape r2
  | _, _ => False

/-- The heap cell a place lives in, if it is a member of a node. -/
def Ref.cell : Ref → Option Nat
  | .root => none
  | .left a => some a
  | .right a => some a
  | .loc _ => none

/-- The state `s` with the cells `ext` allocated after its own. -/
def AvlTree.extend (s : AvlTree T) (ext : List (Option (AvlNode T))) : AvlTree T :=
  { s with heap := s.heap ++ ext }

/-- Every live cell of `s` is still live in `s2` and holds the same element. -/
def Keeps (s s2 : AvlTree T) : Prop :=
  ∀ (a : Nat) (nd : AvlNode T), s.heap[a]? = some (some nd) →
    ∃ nd2 : AvlNode T, s2.heap[a]? = some (some nd2) ∧ nd2.element = nd.element

end Shape

/-! ### Sequences of operations and example states -/

/-- One public mutating operation. -/
inductive Op (T : Type) where
  | insert (x : T)
  | remove (x : T)
deriving DecidableEq, Repr

section Run

variable {T : Type} [LT T] [∀ a b : T, Decidable (a < b)]

/-- Apply one operation. -/
def AvlTree.apply (s : AvlTree T) (fuel : Nat) : Op T → Except Fault (AvlTree T)
  | .insert x => s.insert fuel x
  | .remove x => s.remove fuel x

/-- Apply a sequence of operations, first to last. -/
def AvlTree.run (fuel : Nat) : List (Op T) → AvlTree T → Except Fault (AvlTree T)
  | [], s => .ok s
  | op :: ops, s => do AvlTree.run fuel ops (← s.apply fuel op)

/-- Insert the elements of a list one at a time, first to last. -/
def AvlTree.insertAll (fuel : Nat) : List T → AvlTree T → Except Fault (AvlTree T)
  | [], s => .ok s
  | x :: xs, s => do AvlTree.insertAll fuel xs (← s.insert fuel x)

end Run

/-- The state after inserting 2, 1, 3 into an empty tree of integers with sentinel `-1`. -/
def exThree : AvlTree Int :=
  ⟨-1, some 0, [some ⟨2, some 1, some 2, 1⟩, some ⟨1, none, none, 0⟩, some ⟨3, none, none, 0⟩]⟩

/-- The tree held by `exThree`. -/
def exThreeTree : Tree Int :=
  .node 0 (.node 1 .nil 1 0 .nil) 2 1 (.node 2 .nil 3 0 .nil)

/-- The state after inserting 0 into an empty tree of integers whose sentinel is also 0. -/
def exZero : AvlTree Int := ⟨0, some 0, [some ⟨0, none, none, 0⟩]⟩

/-- The tree held by `exZero`. -/
def exZeroTree : Tree Int := .node 0 .nil 0 0 .nil

/-- The state after inserting 1, 2 into an empty tree of integers with sentinel `-1`. -/
def exTwo : AvlTree Int :=
  ⟨-1, some 0, [some ⟨1, none, some 1, 1⟩, some ⟨2, none, none, 0⟩]⟩

/-- The tree held by `exTwo`. -/
def exTwoTree : Tree Int := .node 0 .nil 1 1 (.node 1 .nil 2 0 .nil)

/-- The state `insert(3)` leaves when started in `exTwo`: the root node 1 has
no children any more; the nodes of 2 and 3 are linked to each other only. -/
def exTwoAfter : AvlTree Int :=
  ⟨-1, some 0,
    [some ⟨1, none, none, 0⟩, some ⟨2, some 0, some 2, 1⟩, some ⟨3, none, none, 0⟩]⟩

/-- The state after inserting 2, 1, 3, 4 into an empty tree of integers with sentinel `-1`. -/
def exFour : AvlTree Int :=
  ⟨-1, some 0,
    [some ⟨2, some 1, some 2, 2⟩, some ⟨1, none, none, 0⟩, some ⟨3, none, some 3, 1⟩,
      some ⟨4, none, none, 0⟩]⟩

/-- The tree held by `exFour`. -/
def exFourTree : Tree Int :=
  .node 0 (.node 1 .nil 1 0 .nil) 2 2 (.node 2 .nil 3 1 (.node 3 .nil 4 0 .nil))

/-- The state after inserting 3, 2, 1 into an empty tree of integers with
sentinel `-1`: the root node 3 has the node of 2 as left child, and that node
has the root as right child. -/
def exCycle : AvlTree Int :=
  ⟨-1, some 0,
    [some ⟨3, some 1, none, 4⟩, some ⟨2, none, some 0, 3⟩, some ⟨1, none, none, 0⟩]⟩

/-- The state after inserting 1, 2, 3, 4, 5, 6, 7 into an empty tree of
integers with sentinel `-1`. -/
def exSeven : AvlTree Int :=
  ⟨-1, some 0,
    [some ⟨1, none, none, 0⟩, some ⟨2, some 0, some 2, 1⟩, some ⟨3, none, none, 0⟩,
      some ⟨4, some 0, some 4, 1⟩, some ⟨5, none, none, 0⟩, some ⟨6, some 0, some 6, 1⟩,
      some ⟨7, none, none, 0⟩]⟩

/-- The state after inserting 5, 3, 8, 1, 4, 7, 9 into an empty tree of
integers with sentinel `-1`. -/
def exBuilt : AvlTree Int :=
  ⟨-1, some 0,
    [some ⟨5, some 1, some 2, 2⟩, some ⟨3, some 3, some 4, 1⟩, some ⟨8, some 5, some 6, 1⟩,
      some ⟨1, none, none, 0⟩, some ⟨4, none, none, 0⟩, some ⟨7, none, none, 0⟩,
      some ⟨9, none, none, 0⟩]⟩

/-- The state `remove(5)` leaves when started in `exBuilt`: the cell of 5 is
freed and the node of 7 (address 5) is the root. -/
def exRemoved : AvlTree Int :=
  ⟨-1, some 5,
    [none, some ⟨3, some 3, some 4, 1⟩, some ⟨8, none, some 6, 1⟩,
      some ⟨1, none, none, 0⟩, some ⟨4, none, none, 0⟩, some ⟨7, some 1, some 2, 2⟩,
      some ⟨9, none, none, 0⟩]⟩

/-- The left subtree of the root of `exBuilt` (elements 1, 3, 4). -/
def exBuiltLeft : Tree Int :=
  .node 1 (.node 3 .nil 1 0 .nil) 3 1 (.node 4 .nil 4 0 .nil)

/-- The right subtree of the root of `exBuilt` (elements 7, 8, 9). -/
def exBuiltRight : Tree Int :=
  .node 2 (.node 5 .nil 7 0 .nil) 8 1 (.node 6 .nil 9 0 .nil)

/-- The tree held by `exRemoved`: the node of 7 over the old left subtree and
the old right subtree without 7. -/
def exRemovedTree : Tree Int :=
  .node 5 exBuiltLeft 7 2 (.node 2 .nil 8 1 (.node 6 .nil 9 0 .nil))

/-- The state after inserting 2, 1, 4, 3 into an empty tree of integers with sentinel `-1`. -/
def exFourB : AvlTree Int :=
  ⟨-1, some 0,
    [some ⟨2, some 1, some 2, 2⟩, some ⟨1, none, none, 0⟩, some ⟨4, some 3, none, 1⟩,
      some ⟨3, none, none, 0⟩]⟩

/-- The tree held by `exFourB`. -/
def exFourBTree : Tree Int :=
  .node 0 (.node 1 .nil 1 0 .nil) 2 2 (.node 2 (.node 3 .nil 3 0 .nil) 4 1 .nil)

/-- The state after inserting 5, 3, 1 into an empty tree of integers with
sentinel `-1`: the root node 5 has the node of 3 as left child, and that node
has the root as right child. -/
def exCycleB : AvlTree Int :=
  ⟨-1, some 0,
    [some ⟨5, some 1, none, 4⟩, some ⟨3, none, some 0, 3⟩, some ⟨1, none, none, 0⟩]⟩

/-- A left chain 3, 2, 1 with correct cached heights. -/
def exChain : AvlTree Int :=
  ⟨-1, some 0,
    [some ⟨3, some 1, none, 2⟩, some ⟨2, some 2, none, 1⟩, some ⟨1, none, none, 0⟩]⟩

/-- The tree held by `exChain`. -/
def exChainTree : Tree Int :=
  .node 0 (.node 1 (.node 2 .nil 1 0 .nil) 2 1 .nil) 3 2 .nil

/-- The state `rotate_r` leaves when applied to the root of `exChain`. -/
def exChainRot : AvlTree Int :=
  ⟨-1, some 0,
    [some ⟨3, some 1, none, 2⟩, some ⟨2, none, some 0, 3⟩, some ⟨1, none, none, 0⟩]⟩

/-- A right chain 2, 3, 4 with correct cached heights. -/
def exRightHeavy : AvlTree Int :=
  ⟨-1, some 0,
    [some ⟨2, none, some 1, 2⟩, some ⟨3, none, some 2, 1⟩, some ⟨4, none, none, 0⟩]⟩

/-- The tree held by `exRightHeavy`. -/
def exRightHeavyTree : Tree Int :=
  .node 0 .nil 2 2 (.node 1 .nil 3 1 (.node 2 .nil 4 0 .nil))

/-- The tree of `exThree` with a stale cached height (5 instead of 0) at the node of 1. -/
def exStale : AvlTree Int :=
  ⟨-1, some 0, [some ⟨2, some 1, some 2, 1⟩, some ⟨1, none, none, 5⟩, some ⟨3, none, none, 0⟩]⟩

/-- The tree held by `exStale`. -/
def exStaleTree : Tree Int :=
  .node 0 (.node 1 .nil 1 5 .nil) 2 1 (.node 2 .nil 3 0 .nil)

/-! ## Basic facts -/

section Facts

variable {T : Type}

theorem load_of_cell {s : AvlTree T} {a : Nat} {n : AvlNode T}
    (h : s.heap[a]? = some (some n)) : s.load (some a) = .ok n := by
  simp [AvlTree.load, h]

theorem store_same {s : AvlTree T} {a : Nat} {n : AvlNode T}
    (h : s.heap[a]? = some (some n)) : s.store a n = s := by
  cases s with
  | mk nf root heap =>
    simp only [AvlTree.store, AvlTree.mk.injEq, true_and]
    simp only at h
    apply List.ext_getElem?
    intro i
    by_cases hi : a = i
    · subst hi
      have hlt : a < heap.length := by
        by_contra hc
        rw [List.getElem?_eq_none (by omega)] at h
        cases h
      rw [List.getElem?_set_self hlt, h]
    · rw [List.getElem?_set_ne hi]

theorem height_of_layout {s : AvlTree T} {t : Tree T} (h : t.Layout s) :
    height s t.ptr = .ok t.cached := by
  cases t with
  | nil => rfl
  | node a l x c r =>
    simp only [Tree.Layout] at h
    simp [height, Tree.ptr, Tree.cached, load_of_cell h.1, bind, Except.bind, pure, Except.pure]

theorem cached_of_correct {t : Tree T} (h : t.HeightsCorrect) : t.cached = t.height := by
  cases t with
  | nil => rfl
  | node a l x c r => exact h.1

theorem elementAt_of_cell {s : AvlTree T} {a : Nat} {n : AvlNode T}
    (h : s.heap[a]? = some (some n)) : elementAt s (some a) = .ok n.element := by
  simp [elementAt, load_of_cell h, bind, Except.bind, pure, Except.pure]

theorem depth_lt_left {a : Nat} {l r : Tree T} {x : T} {c : Int} {fuel : Nat}
    (h : (Tree.node a l x c r).depth < fuel + 1) : l.depth < fuel := by
  simp only [Tree.depth] at h
  omega

theorem depth_lt_right {a : Nat} {l r : Tree T} {x : T} {c : Int} {fuel : Nat}
    (h : (Tree.node a l x c r).depth < fuel + 1) : r.depth < fuel := by
  simp only [Tree.depth] at h
  omega

section Search

variable [LinearOrder T]

/-- The loop of `find` on a search tree laid out in the heap: it stops at a
node holding `x` when `x` is stored and at `nullptr` otherwise. -/
theorem find_of_layout {s : AvlTree T} (x : T) :
    ∀ (t : Tree T), t.Layout s → t.BST → ∀ fuel, t.depth < fuel →
      (x ∈ t.elems → ∃ a n, find s x fuel t.ptr = .ok (some a) ∧
          s.heap[a]? = some (some n) ∧ n.element = x) ∧
      (x ∉ t.elems → find s x fuel t.ptr = .ok none) := by
  intro t
  induction t with
  | nil =>
    intro _ _ fuel hf
    cases fuel with
    | zero => simp [Tree.depth] at hf
    | succ fuel => simp [Tree.elems, Tree.ptr, find]
  | node a l e c r ihl ihr =>
    intro hl hb fuel hf
    cases fuel with
    | zero => simp [Tree.depth] at hf
    | succ fuel =>
      obtain ⟨hcell, hll, hlr⟩ := hl
      obtain ⟨hlt, hgt, hbl, hbr⟩ := hb
      have hL := ihl hll hbl fuel (depth_lt_left hf)
      have hR := ihr hlr hbr fuel (depth_lt_right hf)
      simp only [Tree.ptr, find, load_of_cell hcell, bind, Except.bind, pure, Except.pure,
        Tree.elems, List.mem_append, List.mem_cons]
      by_cases h1 : x < e
      · simp only [h1, if_true]
        have hnr : x ∉ r.elems := fun hm => lt_asymm h1 (hgt x hm)
        have hne : x ≠ e := ne_of_lt h1
        constructor
        · intro hm
          rcases hm with hm | hm | hm
          · exact hL.1 hm
          · exact absurd hm hne
          · exact absurd hm hnr
        · intro hm
          exact hL.2 (fun h => hm (Or.inl h))
      · by_cases h2 : e < x
        · simp only [h1, h2, if_true, if_false]
          have hnl : x ∉ l.elems := fun hm => lt_asymm h2 (hlt x hm)
          have hne : x ≠ e := (ne_of_lt h2).symm
          constructor
          · intro hm
            rcases hm with hm | hm | hm
            · exact absurd hm hnl
            · exact absurd hm hne
            · exact hR.1 hm
          · intro hm
            exact hR.2 (fun h => hm (Or.inr (Or.inr h)))
        · have hxe : x = e := le_antisymm (not_lt.mp h2) (not_lt.mp h1)
          simp only [h1, h2, if_false]
          constructor
          · intro _
            exact ⟨a, _, rfl, hcell, hxe.symm⟩
          · intro hm
            exact absurd (Or.inr (Or.inl hxe)) hm

/-- In a search tree the leftmost element is below every other element. -/
theorem first_least :
    ∀ (t : Tree T), t.BST → ∀ m, t.first = some m →
      m ∈ t.elems ∧ ∀ y ∈ t.elems, y ≠ m → m < y := by
  intro t
  induction t with
  | nil => intro _ m hm; simp [Tree.first] at hm
  | node a l e c r ihl _ =>
    intro hb m hm
    obtain ⟨hlt, hgt, hbl, _⟩ := hb
    cases l with
    | nil =>
      simp only [Tree.first, Option.some.injEq] at hm
      subst hm
      simp only [Tree.elems, List.nil_append, List.mem_cons, true_or, true_and]
      intro y hy hne
      rcases hy with hy | hy
      · exact absurd hy hne
      · exact hgt y hy
    | node a2 l2 e2 c2 r2 =>
      simp only [Tree.first] at hm
      obtain ⟨hin, hle⟩ := ihl hbl m hm
      have hme : m < e := hlt m hin
      refine ⟨by rw [Tree.elems]; exact List.mem_append.mpr (Or.inl hin), ?_⟩
      intro y hy hne
      simp only [Tree.elems, List.mem_append, List.mem_cons] at hy
      rcases hy with hy | hy | hy
      · exact hle y (by simpa [Tree.elems] using hy) hne
      · exact hy ▸ hme
      · exact lt_trans hme (hgt y hy)

/-- In a search tree the rightmost element is above every other element. -/
theorem last_greatest :
    ∀ (t : Tree T), t.BST → ∀ m, t.last = some m →
      m ∈ t.elems ∧ ∀ y ∈ t.elems, y ≠ m → y < m := by
  intro t
  induction t with
  | nil => intro _ m hm; simp [Tree.last] at hm
  | node a l e c r _ ihr =>
    intro hb m hm
    obtain ⟨hlt, hgt, _, hbr⟩ := hb
    cases r with
    | nil =>
      simp only [Tree.last, Option.some.injEq] at hm
      subst hm
      simp only [Tree.elems, List.mem_append, List.mem_cons, List.not_mem_nil, or_false,
        or_true, true_and]
      intro y hy hne
      rcases hy with hy | hy
      · exact hlt y hy
      · exact absurd hy hne
    | node a2 l2 e2 c2 r2 =>
      simp only [Tree.last] at hm
      obtain ⟨hin, hle⟩ := ihr hbr m hm
      have hme : e < m := hgt m hin
      refine ⟨by rw [Tree.elems]
                 exact List.mem_append.mpr (Or.inr (List.mem_cons_of_mem _ hin)), ?_⟩
      intro y hy hne
      simp only [Tree.elems, List.mem_append, List.mem_cons] at hy
      rcases hy with hy | hy | hy
      · exact lt_trans (hlt y hy) hme
      · exact hy ▸ hme
      · exact hle y (by simpa [Tree.elems] using hy) hne

end Search

/-- The loop of `findMin` on a tree laid out in the heap ends at the leftmost node. -/
theorem findMin_of_layout {s : AvlTree T} :
    ∀ (t : Tree T), t.Layout s → ∀ fuel, t.depth < fuel →
      ∃ p, findMin s fuel t.ptr = .ok p ∧ (p = none ↔ t = .nil) ∧
        elementAt s p = .ok (t.first.getD s.ITEM_NOT_FOUND) := by
  intro t
  induction t with
  | nil =>
    intro _ fuel hf
    cases fuel with
    | zero => simp [Tree.depth] at hf
    | succ fuel => exact ⟨none, rfl, by simp, rfl⟩
  | node a l e c r ihl _ =>
    intro hl fuel hf
    cases fuel with
    | zero => simp [Tree.depth] at hf
    | succ fuel =>
      obtain ⟨hcell, hll, _⟩ := hl
      cases l with
      | nil =>
        refine ⟨some a, ?_, by simp, ?_⟩
        · simp [Tree.ptr, findMin, load_of_cell hcell, bind, Except.bind, pure, Except.pure]
        · simp [Tree.first, elementAt_of_cell hcell]
      | node a2 l2 e2 c2 r2 =>
        obtain ⟨p, hp, hnil, hel⟩ := ihl hll fuel (depth_lt_left hf)
        refine ⟨p, ?_, ?_, ?_⟩
        · simpa [Tree.ptr, findMin, load_of_cell hcell, bind, Except.bind] using hp
        · simpa using hnil
        · simpa [Tree.first] using hel

/-- The loop of `findMax` on a tree laid out in the heap ends at the rightmost node. -/
theorem findMax_of_layout {s : AvlTree T} :
    ∀ (t : Tree T), t.Layout s → ∀ fuel, t.depth < fuel →
      ∃ p, findMax s fuel t.ptr = .ok p ∧ (p = none ↔ t = .nil) ∧
        elementAt s p = .ok (t.last.getD s.ITEM_NOT_FOUND) := by
  intro t
  induction t with
  | nil =>
    intro _ fuel hf
    cases fuel with
    | zero => simp [Tree.depth] at hf
    | succ fuel => exact ⟨none, rfl, by simp, rfl⟩
  | node a l e c r _ ihr =>
    intro hl fuel hf
    cases fuel with
    | zero => simp [Tree.depth] at hf
    | succ fuel =>
      obtain ⟨hcell, _, hlr⟩ := hl
      cases r with
      | nil =>
        refine ⟨some a, ?_, by simp, ?_⟩
        · simp [Tree.ptr, findMax, load_of_cell hcell, bind, Except.bind, pure, Except.pure]
        · simp [Tree.last, elementAt_of_cell hcell]
      | node a2 l2 e2 c2 r2 =>
        obtain ⟨p, hp, hnil, hel⟩ := ihr hlr fuel (depth_lt_right hf)
        refine ⟨p, ?_, ?_, ?_⟩
        · simpa [Tree.ptr, findMax, load_of_cell hcell, bind, Except.bind] using hp
        · simpa using hnil
        · simpa [Tree.last] using hel

theorem first_isSome_of_node (l : Tree T) :
    ∀ (a : Nat) (x : T) (c : Int) (r : Tree T), ∃ m, (Tree.node a l x c r).first = some m := by
  induction l with
  | nil => intro a x c r; exact ⟨x, rfl⟩
  | node a2 l2 e2 c2 r2 ih _ =>
    intro a x c r
    obtain ⟨m, hm⟩ := ih a2 e2 c2 r2
    exact ⟨m, by simpa [Tree.first] using hm⟩

theorem last_isSome_of_node (r : Tree T) :
    ∀ (a : Nat) (l : Tree T) (x : T) (c : Int), ∃ m, (Tree.node a l x c r).last = some m := by
  induction r with
  | nil => intro a l x c; exact ⟨x, rfl⟩
  | node a2 l2 e2 c2 r2 _ ih =>
    intro a l x c
    obtain ⟨m, hm⟩ := ih a2 l2 e2 c2
    exact ⟨m, by simpa [Tree.last] using hm⟩

end Facts


/-! ## Insertion of a duplicate -/

section Duplicate

variable {T : Type}

theorem read_left_of_cell {s : AvlTree T} {a : Nat} {n : AvlNode T}
    (h : s.heap[a]? = some (some n)) : s.read (.left a) = .ok n.left := by
  simp [AvlTree.read, load_of_cell h, bind, Except.bind, pure, Except.pure]

theorem read_right_of_cell {s : AvlTree T} {a : Nat} {n : AvlNode T}
    (h : s.heap[a]? = some (some n)) : s.read (.right a) = .ok n.right := by
  simp [AvlTree.read, load_of_cell h, bind, Except.bind, pure, Except.pure]

/-- The tail of `insert` never reports a duplicate. -/
theorem insert_done_flag {t : Ref} {s s' : AvlTree T} {b : Bool}
    (h : insert_done t s = .ok (b, s')) : b = true := by
  unfold insert_done at h
  simp only [bind, Except.bind, pure, Except.pure] at h
  repeat' split at h
  all_goals first
    | cases h; rfl
    | cases h

variable [LinearOrder T]

/-- When `x` is stored in the search tree, `insert` reports a duplicate and
leaves the whole state as it was. -/
theorem insert_present {s : AvlTree T} (x : T) :
    ∀ (t : Tree T), t.Layout s → t.BST → x ∈ t.elems →
      ∀ fuel r, t.depth < fuel → s.read r = .ok t.ptr →
        insert x fuel r s = .ok (false, s) := by
  intro t
  induction t with
  | nil => intro _ _ hx; simp [Tree.elems] at hx
  | node a l e c r ihl ihr =>
    intro hl hb hx fuel ref hf hread
    cases fuel with
    | zero => simp [Tree.depth] at hf
    | succ fuel =>
      obtain ⟨hcell, hll, hlr⟩ := hl
      obtain ⟨hlt, hgt, hbl, hbr⟩ := hb
      simp only [Tree.elems, List.mem_append, List.mem_cons] at hx
      simp only [Tree.ptr] at hread
      simp only [insert, hread, load_of_cell hcell, bind, Except.bind, pure, Except.pure]
      by_cases h1 : x < e
      · have hxl : x ∈ l.elems := by
          rcases hx with hx | hx | hx
          · exact hx
          · exact absurd hx (ne_of_lt h1)
          · exact absurd (hgt x hx) (lt_asymm h1)
        have := ihl hll hbl hxl fuel (.left a) (depth_lt_left hf) (read_left_of_cell hcell)
        simp [h1, this]
      · by_cases h2 : e < x
        · have hxr : x ∈ r.elems := by
            rcases hx with hx | hx | hx
            · exact absurd (hlt x hx) (lt_asymm h2)
            · exact absurd hx (ne_of_lt h2).symm
            · exact hx
          have := ihr hlr hbr hxr fuel (.right a) (depth_lt_right hf) (read_right_of_cell hcell)
          simp [h1, h2, this]
        · simp [h1, h2]

/-- When `x` is not stored in the tree, `insert` does not report a duplicate. -/
theorem insert_absent {s : AvlTree T} (x : T) :
    ∀ (t : Tree T), t.Layout s → x ∉ t.elems →
      ∀ fuel r, s.read r = .ok t.ptr → ∀ s', insert x fuel r s ≠ .ok (false, s') := by
  intro t
  induction t with
  | nil =>
    intro _ _ fuel ref hread s' h
    cases fuel with
    | zero => simp [insert] at h
    | succ fuel =>
      simp only [Tree.ptr] at hread
      simp only [insert, hread, bind, Except.bind, pure, Except.pure] at h
      split at h
      · cases h
      · have := insert_done_flag h
        cases this
  | node a l e c r ihl ihr =>
    intro hl hx fuel ref hread s' h
    cases fuel with
    | zero => simp [insert] at h
    | succ fuel =>
      obtain ⟨hcell, hll, hlr⟩ := hl
      simp only [Tree.elems, List.mem_append, List.mem_cons, not_or] at hx
      obtain ⟨hxl, hxe, hxr⟩ := hx
      simp only [Tree.ptr] at hread
      simp only [insert, hread, load_of_cell hcell, bind, Except.bind, pure, Except.pure] at h
      by_cases h1 : x < e
      · simp only [h1, if_true] at h
        have hrec := ihl hll hxl fuel (.left a) (read_left_of_cell hcell)
        cases hins : insert x fuel (.left a) s with
        | error f => rw [hins] at h; cases h
        | ok res =>
          obtain ⟨b, s1⟩ := res
          cases b with
          | false => exact hrec s1 hins
          | true =>
            rw [hins] at h
            simp only at h
            split at h
            · cases h
            · have := insert_done_flag h
              cases this
      · by_cases h2 : e < x
        · simp only [h1, h2, if_true, if_false] at h
          have hrec := ihr hlr hxr fuel (.right a) (read_right_of_cell hcell)
          cases hins : insert x fuel (.right a) s with
          | error f => rw [hins] at h; cases h
          | ok res =>
            obtain ⟨b, s1⟩ := res
            cases b with
            | false => exact hrec s1 hins
            | true =>
              rw [hins] at h
              simp only at h
              split at h
              · cases h
              · have := insert_done_flag h
                cases this
        · exact hxe (le_antisymm (not_lt.mp h2) (not_lt.mp h1))

/-- C2: on a search tree laid out in the heap the recursive `insert(x, root)`
returns `false` exactly when an element equal to `x` is stored, and the state
it returns with `false` is the state it was given: every node, link and
cached height is unchanged. -/
theorem insert_duplicate_iff (s : AvlTree T) (t : Tree T) (x : T) (fuel : Nat)
    (hroot : s.root = t.ptr) (hlay : t.Layout s) (hbst : t.BST) (hfuel : t.depth < fuel) :
    ((∃ s', insert x fuel .root s = .ok (false, s')) ↔ x ∈ t.elems) ∧
    (∀ s', insert x fuel .root s = .ok (false, s') → s' = s) := by
  have hread : s.read .root = .ok t.ptr := by simp [AvlTree.read, hroot]
  by_cases hx : x ∈ t.elems
  · have h := insert_present x t hlay hbst hx fuel .root hfuel hread
    refine ⟨⟨fun _ => hx, fun _ => ⟨s, h⟩⟩, ?_⟩
    intro s' hs'
    rw [h] at hs'
    cases hs'
    rfl
  · have h := insert_absent x t hlay hx fuel .root hread
    refine ⟨⟨fun ⟨s', hs'⟩ => absurd hs' (h s'), fun hx' => absurd hx' hx⟩, ?_⟩
    intro s' hs'
    exact absurd hs' (h s')

theorem insert_duplicate_iff_witness :
    ((∃ s', insert (3 : Int) 3 .root exThree = .ok (false, s')) ↔ (3 : Int) ∈ exThreeTree.elems) ∧
    (∀ s', insert (3 : Int) 3 .root exThree = .ok (false, s') → s' = exThree) :=
  insert_duplicate_iff exThree exThreeTree 3 3 rfl
    (by simp [Tree.Layout, exThree, exThreeTree, Tree.ptr])
    (by simp [Tree.BST, exThreeTree, Tree.elems])
    (by decide)

end Duplicate

/-! ## Removal of an absent element -/

section RemoveAbsent

variable {T : Type}

theorem modify_same {s : AvlTree T} {a : Nat} {n : AvlNode T} {f : AvlNode T → AvlNode T}
    (h : s.heap[a]? = some (some n)) (hf : f n = n) : s.modify (some a) f = .ok s := by
  simp [AvlTree.modify, load_of_cell h, bind, Except.bind, pure, Except.pure, hf, store_same h]

/-- On a node whose cached height is right, `fixheight` changes nothing. -/
theorem fixheight_same {s : AvlTree T} {a : Nat} {l r : Tree T} {x : T} {c : Int}
    (hcell : s.heap[a]? = some (some ⟨x, l.ptr, r.ptr, c⟩))
    (hl : l.Layout s) (hr : r.Layout s) (hc : c = Avl.max l.cached r.cached + 1) :
    fixheight s (some a) = .ok s := by
  simp only [fixheight, load_of_cell hcell, height_of_layout hl, height_of_layout hr, bind,
    Except.bind]
  exact modify_same hcell (by rw [← hc])

theorem balance_factor_of_layout {s : AvlTree T} {a : Nat} {l r : Tree T} {x : T} {c : Int}
    (hcell : s.heap[a]? = some (some ⟨x, l.ptr, r.ptr, c⟩))
    (hl : l.Layout s) (hr : r.Layout s) :
    balance_factor s (some a) = .ok (r.cached - l.cached) := by
  simp [balance_factor, load_of_cell hcell, height_of_layout hl, height_of_layout hr, bind,
    Except.bind, pure, Except.pure]

/-- On a node whose cached height is right and whose balance factor is not
`2`, `balance` returns the node and changes nothing. -/
theorem balance_same {s : AvlTree T} {n : Ref} {a : Nat} {l r : Tree T} {x : T} {c : Int}
    (hread : s.read n = .ok (some a))
    (hcell : s.heap[a]? = some (some ⟨x, l.ptr, r.ptr, c⟩))
    (hl : l.Layout s) (hr : r.Layout s) (hc : c = Avl.max l.cached r.cached + 1)
    (hbf : r.cached - l.cached ≠ 2) :
    balance n s = .ok (some a, s) := by
  simp [balance, hread, fixheight_same hcell hl hr hc, balance_factor_of_layout hcell hl hr,
    bind, Except.bind, pure, Except.pure, hbf]

variable [LinearOrder T]

/-- The recursive `remove` of an element that is not stored returns the
pointer it was given and the state it was given. -/
theorem remove_absent {s : AvlTree T} (x : T) :
    ∀ (t : Tree T), t.Layout s → t.Balanced → t.HeightsCorrect → x ∉ t.elems →
      ∀ fuel r, t.depth < fuel → s.read r = .ok t.ptr →
        remove x fuel r s = .ok (t.ptr, s) := by
  intro t
  induction t with
  | nil =>
    intro _ _ _ _ fuel ref hf hread
    cases fuel with
    | zero => simp [Tree.depth] at hf
    | succ fuel =>
      simp only [Tree.ptr] at hread
      simp [remove, hread, Tree.ptr, bind, Except.bind, pure, Except.pure]
  | node a l e c r ihl ihr =>
    intro hlay hbal hhc hx fuel ref hf hread
    cases fuel with
    | zero => simp [Tree.depth] at hf
    | succ fuel =>
      obtain ⟨hcell, hll, hlr⟩ := hlay
      obtain ⟨hb1, hb2, hbl, hbr⟩ := hbal
      obtain ⟨hc, hcl, hcr⟩ := hhc
      simp only [Tree.elems, List.mem_append, List.mem_cons, not_or] at hx
      obtain ⟨hxl, hxe, hxr⟩ := hx
      simp only [Tree.ptr] at hread
      have hc' : c = Avl.max l.cached r.cached + 1 := by
        rw [cached_of_correct hcl, cached_of_correct hcr]
        exact hc
      have hbf : r.cached - l.cached ≠ 2 := by
        rw [cached_of_correct hcl, cached_of_correct hcr]
        omega
      have hbalance := balance_same hread hcell hll hlr hc' hbf
      simp only [remove, hread, load_of_cell hcell, bind, Except.bind, pure, Except.pure]
      by_cases h1 : x < e
      · have hrec := ihl hll hbl hcl hxl fuel (.left a) (depth_lt_left hf)
          (read_left_of_cell hcell)
        have hmod : s.modify (some a) (fun m => { m with left := l.ptr }) = .ok s :=
          modify_same hcell rfl
        simp only [h1, if_true, hrec, hread, hmod, hbalance]
        rfl
      · have h2 : e < x := lt_of_le_of_ne (not_lt.mp h1) (fun h => hxe h.symm)
        have hrec := ihr hlr hbr hcr hxr fuel (.right a) (depth_lt_right hf)
          (read_right_of_cell hcell)
        have hmod : s.modify (some a) (fun m => { m with right := r.ptr }) = .ok s :=
          modify_same hcell rfl
        simp only [h1, h2, if_true, if_false, hrec, hread, hmod, hbalance]
        rfl

/-- C7: on a tree laid out in the heap that is balanced and has correct
cached heights, `remove(x)` of an element that is not stored returns the
state it was given: same root, same nodes, same links, same cached heights.
(The search-tree order is not needed for this.) -/
theorem remove_absent_noop (s : AvlTree T) (t : Tree T) (x : T) (fuel : Nat)
    (hroot : s.root = t.ptr) (hlay : t.Layout s) (hbal : t.Balanced)
    (hhc : t.HeightsCorrect) (hx : x ∉ t.elems) (hfuel : t.depth < fuel) :
    s.remove fuel x = .ok s := by
  have hread : s.read .root = .ok t.ptr := by simp [AvlTree.read, hroot]
  have h := remove_absent x t hlay hbal hhc hx fuel .root hfuel hread
  simp [AvlTree.remove, h, bind, Except.bind, pure, Except.pure, ← hroot]

theorem remove_absent_noop_witness : exThree.remove 3 5 = .ok exThree :=
  remove_absent_noop exThree exThreeTree 5 3 rfl
    (by simp [Tree.Layout, exThree, exThreeTree, Tree.ptr])
    (by simp [Tree.Balanced, exThreeTree, Tree.height, Avl.max])
    (by simp [Tree.HeightsCorrect, exThreeTree, Tree.height, Avl.max])
    (by simp [exThreeTree, Tree.elems])
    (by decide)

end RemoveAbsent

/-! ## Lookup -/

section Lookup

variable {T : Type} [LinearOrder T]

/-- C3: on a search tree laid out in the heap, `find(x)` returns the stored
element equal to `x` (found at a node, not `nullptr`) when one is stored and
the sentinel `ITEM_NOT_FOUND` (from `nullptr`) when none is.  `find` only
reads: the embedded function has no state among its results. -/
theorem find_correct (s : AvlTree T) (t : Tree T) (x : T) (fuel : Nat)
    (hroot : s.root = t.ptr) (hlay : t.Layout s) (hbst : t.BST) (hfuel : t.depth < fuel) :
    (x ∈ t.elems →
      (∃ a, Avl.find s x fuel s.root = .ok (some a)) ∧ s.find fuel x = .ok x) ∧
    (x ∉ t.elems →
      Avl.find s x fuel s.root = .ok none ∧ s.find fuel x = .ok s.ITEM_NOT_FOUND) := by
  have h := find_of_layout x t hlay hbst fuel hfuel
  rw [hroot]
  constructor
  · intro hx
    obtain ⟨a, n, hfind, hcell, hel⟩ := h.1 hx
    refine ⟨⟨a, hfind⟩, ?_⟩
    simp [AvlTree.find, hroot, hfind, bind, Except.bind, elementAt_of_cell hcell, hel]
  · intro hx
    have hfind := h.2 hx
    refine ⟨hfind, ?_⟩
    simp [AvlTree.find, hroot, hfind, bind, Except.bind, elementAt]

theorem find_correct_witness :
    ((2 : Int) ∈ exThreeTree.elems →
      (∃ a, Avl.find exThree 2 3 exThree.root = .ok (some a)) ∧ exThree.find 3 2 = .ok 2) ∧
    ((2 : Int) ∉ exThreeTree.elems →
      Avl.find exThree 2 3 exThree.root = .ok none ∧
        exThree.find 3 2 = .ok exThree.ITEM_NOT_FOUND) :=
  find_correct exThree exThreeTree 2 3 rfl
    (by simp [Tree.Layout, exThree, exThreeTree, Tree.ptr])
    (by simp [Tree.BST, exThreeTree, Tree.elems])
    (by decide)

/-- C4: on a non-empty search tree `findMin()` returns a stored element that
every other stored element is greater than, and `findMax()` one that every
other stored element is less than; on the empty tree both return the sentinel. -/
theorem findMin_findMax_extreme (s : AvlTree T) (t : Tree T) (fuel : Nat)
    (hroot : s.root = t.ptr) (hlay : t.Layout s) (hbst : t.BST) (hfuel : t.depth < fuel) :
    (t = .nil →
      s.findMin fuel = .ok s.ITEM_NOT_FOUND ∧ s.findMax fuel = .ok s.ITEM_NOT_FOUND) ∧
    (t ≠ .nil → ∃ lo hi,
      s.findMin fuel = .ok lo ∧ s.findMax fuel = .ok hi ∧
      lo ∈ t.elems ∧ hi ∈ t.elems ∧
      (∀ y ∈ t.elems, y ≠ lo → lo < y) ∧ (∀ y ∈ t.elems, y ≠ hi → y < hi)) := by
  obtain ⟨p, hp, _, hpe⟩ := findMin_of_layout t hlay fuel hfuel
  obtain ⟨q, hq, _, hqe⟩ := findMax_of_layout t hlay fuel hfuel
  have hmin : s.findMin fuel = .ok (t.first.getD s.ITEM_NOT_FOUND) := by
    simp [AvlTree.findMin, hroot, hp, bind, Except.bind, hpe]
  have hmax : s.findMax fuel = .ok (t.last.getD s.ITEM_NOT_FOUND) := by
    simp [AvlTree.findMax, hroot, hq, bind, Except.bind, hqe]
  constructor
  · intro hnil
    subst hnil
    exact ⟨by simpa [Tree.first] using hmin, by simpa [Tree.last] using hmax⟩
  · intro hne
    cases t with
    | nil => exact absurd rfl hne
    | node a l e c r =>
      obtain ⟨lo, hlo⟩ := first_isSome_of_node l a e c r
      obtain ⟨hi, hhi⟩ := last_isSome_of_node r a l e c
      obtain ⟨hlin, hlle⟩ := first_least _ hbst lo hlo
      obtain ⟨hhin, hhle⟩ := last_greatest _ hbst hi hhi
      refine ⟨lo, hi, ?_, ?_, hlin, hhin, hlle, hhle⟩
      · simpa [hlo] using hmin
      · simpa [hhi] using hmax

theorem findMin_findMax_extreme_witness :
    (exThreeTree = .nil →
      exThree.findMin 3 = .ok exThree.ITEM_NOT_FOUND ∧
        exThree.findMax 3 = .ok exThree.ITEM_NOT_FOUND) ∧
    (exThreeTree ≠ .nil → ∃ lo hi,
      exThree.findMin 3 = .ok lo ∧ exThree.findMax 3 = .ok hi ∧
      lo ∈ exThreeTree.elems ∧ hi ∈ exThreeTree.elems ∧
      (∀ y ∈ exThreeTree.elems, y ≠ lo → lo < y) ∧
      (∀ y ∈ exThreeTree.elems, y ≠ hi → y < hi)) :=
  findMin_findMax_extreme exThree exThreeTree 3 rfl
    (by simp [Tree.Layout, exThree, exThreeTree, Tree.ptr])
    (by simp [Tree.BST, exThreeTree, Tree.elems])
    (by decide)

end Lookup

section Sentinel

variable {T : Type}

/-- C5 fails as stated: the tree holding the single element 0, built by
`insert(0)` on an empty tree whose sentinel is 0, is not empty, yet
`findMin()` and `findMax()` both return the sentinel. -/
theorem sentinel_not_only_when_empty :
    (AvlTree.construct (0 : Int)).insert 1 0 = .ok exZero ∧
    exZero.isEmpty = false ∧
    (∀ n, exZero.findMin (n + 1) = .ok exZero.ITEM_NOT_FOUND) ∧
    (∀ n, exZero.findMax (n + 1) = .ok exZero.ITEM_NOT_FOUND) :=
  ⟨rfl, rfl, fun _ => rfl, fun _ => rfl⟩

/-- C5, amended: on a tree laid out in the heap `findMin()` returns the
sentinel exactly when the tree is empty or its leftmost element is the
sentinel value itself, and `findMax()` exactly when the tree is empty or its
rightmost element is the sentinel value. -/
theorem sentinel_iff_empty_or_stored (s : AvlTree T) (t : Tree T) (fuel : Nat)
    (hroot : s.root = t.ptr) (hlay : t.Layout s) (hfuel : t.depth < fuel) :
    ∃ lo hi, s.findMin fuel = .ok lo ∧ s.findMax fuel = .ok hi ∧
      (lo = s.ITEM_NOT_FOUND ↔ (s.isEmpty = true ∨ t.first = some s.ITEM_NOT_FOUND)) ∧
      (hi = s.ITEM_NOT_FOUND ↔ (s.isEmpty = true ∨ t.last = some s.ITEM_NOT_FOUND)) := by
  obtain ⟨p, hp, _, hpe⟩ := findMin_of_layout t hlay fuel hfuel
  obtain ⟨q, hq, _, hqe⟩ := findMax_of_layout t hlay fuel hfuel
  refine ⟨t.first.getD s.ITEM_NOT_FOUND, t.last.getD s.ITEM_NOT_FOUND, ?_, ?_, ?_, ?_⟩
  · simp [AvlTree.findMin, hroot, hp, bind, Except.bind, hpe]
  · simp [AvlTree.findMax, hroot, hq, bind, Except.bind, hqe]
  · cases t with
    | nil => simp [AvlTree.isEmpty, hroot, Tree.ptr, Tree.first]
    | node a l e c r =>
      obtain ⟨m, hm⟩ := first_isSome_of_node l a e c r
      simp [AvlTree.isEmpty, hroot, Tree.ptr, hm]
  · cases t with
    | nil => simp [AvlTree.isEmpty, hroot, Tree.ptr, Tree.last]
    | node a l e c r =>
      obtain ⟨m, hm⟩ := last_isSome_of_node r a l e c
      simp [AvlTree.isEmpty, hroot, Tree.ptr, hm]

theorem sentinel_iff_empty_or_stored_witness :
    ∃ lo hi, exThree.findMin 3 = .ok lo ∧ exThree.findMax 3 = .ok hi ∧
      (lo = exThree.ITEM_NOT_FOUND ↔
        (exThree.isEmpty = true ∨ exThreeTree.first = some exThree.ITEM_NOT_FOUND)) ∧
      (hi = exThree.ITEM_NOT_FOUND ↔
        (exThree.isEmpty = true ∨ exThreeTree.last = some exThree.ITEM_NOT_FOUND)) :=
  sentinel_iff_empty_or_stored exThree exThreeTree 3 rfl
    (by simp [Tree.Layout, exThree, exThreeTree, Tree.ptr])
    (by decide)

end Sentinel

/-! ## Executions that lose elements, fault or loop -/

section Executions

/-- C1 fails on the code.  `exTwo` (elements 1, 2; built by two inserts) is a
balanced search tree with correct cached heights that does not hold 3.
`insert(3)` returns `true`, but the left rotation at the root is performed
on the nodes only, the root pointer keeps pointing at the node of 1, which
has lost its right child: afterwards `find(3)` and `find(2)` return the
sentinel and the traversal prints 1 alone. -/
theorem insert_loses_elements :
    (AvlTree.construct (-1 : Int)).insertAll 2 [1, 2] = .ok exTwo ∧
    exTwo.root = exTwoTree.ptr ∧ exTwoTree.Layout exTwo ∧ exTwoTree.BST ∧
    exTwoTree.Balanced ∧ exTwoTree.HeightsCorrect ∧ (3 : Int) ∉ exTwoTree.elems ∧
    (∀ n, exTwo.find (n + 2) 2 = .ok 2) ∧
    (∀ n, insert (3 : Int) (n + 3) .root exTwo = .ok (true, exTwoAfter)) ∧
    (∀ n, exTwoAfter.find (n + 2) 3 = .ok (-1)) ∧
    (∀ n, exTwoAfter.find (n + 2) 2 = .ok (-1)) ∧
    (∀ n, printTree exTwoAfter (n + 2) exTwoAfter.root [] = .ok [1]) := by
  refine ⟨rfl, rfl, ?_, ?_, ?_, ?_, ?_, fun _ => rfl, fun _ => rfl, fun _ => rfl,
    fun _ => rfl, fun _ => rfl⟩
  · simp [Tree.Layout, exTwo, exTwoTree, Tree.ptr]
  · simp [Tree.BST, exTwoTree, Tree.elems]
  · simp [Tree.Balanced, exTwoTree, Tree.height, Avl.max]
  · simp [Tree.HeightsCorrect, exTwoTree, Tree.height, Avl.max]
  · simp [exTwoTree, Tree.elems]

/-- C6 fails on the code.  `exFour` (elements 1, 2, 3, 4; built by four
inserts) is a balanced search tree with correct cached heights that holds 1.
`remove(1)` unlinks the node of 1, then `balance` finds the balance factor
`2` at the root and calls `rotate_r` on it, which dereferences the root's
left child, now `nullptr`. -/
theorem remove_present_faults :
    (AvlTree.construct (-1 : Int)).insertAll 3 [2, 1, 3, 4] = .ok exFour ∧
    exFour.root = exFourTree.ptr ∧ exFourTree.Layout exFour ∧ exFourTree.BST ∧
    exFourTree.Balanced ∧ exFourTree.HeightsCorrect ∧ (1 : Int) ∈ exFourTree.elems ∧
    (∀ n, exFour.remove (n + 2) 1 = .error .nullDeref) := by
  refine ⟨rfl, rfl, ?_, ?_, ?_, ?_, ?_, fun _ => rfl⟩
  · simp [Tree.Layout, exFour, exFourTree, Tree.ptr]
  · simp [Tree.BST, exFourTree, Tree.elems]
  · simp [Tree.Balanced, exFourTree, Tree.height, Avl.max]
  · simp [Tree.HeightsCorrect, exFourTree, Tree.height, Avl.max]
  · simp [exFourTree, Tree.elems]

/-- C8 fails on the code.  After `insert(3)`, `insert(2)`, `insert(1)` on an
empty tree, `isBalanced()` returns `false`: the right rotation run by the
third insert leaves the cached heights 3 (left child) and -1 (no right
child) at the root. -/
theorem isBalanced_false_after_inserts :
    AvlTree.run 3 [.insert 3, .insert 2, .insert 1] (AvlTree.construct (-1 : Int))
      = .ok exCycle ∧
    (∀ n, exCycle.isBalanced (n + 1) = .ok false) :=
  ⟨rfl, fun _ => rfl⟩

/-- In `exCycle` the traversal from the root, and from its left child, never
comes to an end, whatever the fuel and whatever has been printed so far. -/
theorem printTree_exCycle_diverges :
    ∀ (fuel : Nat) (stream : List Int),
      printTree exCycle fuel (some 0) stream = .error .outOfFuel ∧
      printTree exCycle fuel (some 1) stream = .error .outOfFuel := by
  intro fuel
  induction fuel with
  | zero => intro stream; exact ⟨rfl, rfl⟩
  | succ f ih =>
    intro stream
    constructor
    · show (printTree exCycle f (some 1) stream >>= fun st =>
          printTree exCycle f none (st ++ [3])) = .error .outOfFuel
      rw [(ih stream).2]
      rfl
    · cases f with
      | zero => rfl
      | succ g =>
        show printTree exCycle (g + 1) (some 0) (stream ++ [2]) = .error .outOfFuel
        exact (ih (stream ++ [2])).1

/-- C9 fails on the code.  After `insert(3)`, `insert(2)`, `insert(1)` on an
empty tree the child links form a cycle (the root's left child has the root
as its right child), so the in-order traversal yields no sequence at all: it
runs out of every amount of fuel. -/
theorem traversal_diverges_after_inserts :
    AvlTree.run 3 [.insert 3, .insert 2, .insert 1] (AvlTree.construct (-1 : Int))
      = .ok exCycle ∧
    exCycle.root = some 0 ∧
    exCycle.read (.left 0) = .ok (some 1) ∧ exCycle.read (.right 1) = .ok (some 0) ∧
    (∀ fuel, printTree exCycle fuel exCycle.root [] = .error .outOfFuel) :=
  ⟨rfl, rfl, rfl, rfl, fun fuel => (printTree_exCycle_diverges fuel []).1⟩

/-- C10 fails on the code.  Inserting 1, 2, 3, 4, 5, 6, 7 in that order into
an empty tree and traversing gives `[1]`: each left rotation at the root is
performed on the nodes only, the root pointer keeps pointing at the node of
1, and that node loses its right child. -/
theorem insert_ascending_traversal :
    (∀ n, (AvlTree.construct (-1 : Int)).insertAll (n + 3) [1, 2, 3, 4, 5, 6, 7]
      = .ok exSeven) ∧
    (∀ n, printTree exSeven (n + 2) exSeven.root [] = .ok [1]) ∧
    (∀ n, (AvlTree.construct (-1 : Int)).insertAll (n + 3) [1, 2, 3] = .ok exTwoAfter) :=
  ⟨fun _ => rfl, fun _ => rfl, fun _ => rfl⟩

end Executions

/-! ## Removal with two children, and executions of the rebalancing code -/

section Rebalancing

/-- C11: the tree built by inserting 5, 3, 8, 1, 4, 7, 9 is `exBuilt`;
`remove(5)` on it makes the node of 7 the root, with the old left subtree
(the same nodes) as its left child and the old right subtree without 7 as
its right child, and the traversal is 1, 3, 4, 7, 8, 9. -/
theorem remove_two_children :
    (∀ n, (AvlTree.construct (-1 : Int)).insertAll (n + 3) [5, 3, 8, 1, 4, 7, 9]
      = .ok exBuilt) ∧
    exBuilt.read (.left 0) = .ok exBuiltLeft.ptr ∧ exBuiltLeft.Layout exBuilt ∧
    exBuilt.read (.right 0) = .ok exBuiltRight.ptr ∧ exBuiltRight.Layout exBuilt ∧
    (∀ n, exBuilt.remove (n + 3) 5 = .ok exRemoved) ∧
    exRemoved.root = exRemovedTree.ptr ∧ exRemovedTree.Layout exRemoved ∧
    elementAt exRemoved exRemoved.root = .ok 7 ∧
    exRemovedTree.elems = [1, 3, 4, 7, 8, 9] ∧
    (∀ n, printTree exRemoved (n + 4) exRemoved.root [] = .ok [1, 3, 4, 7, 8, 9]) := by
  refine ⟨fun _ => rfl, rfl, ?_, rfl, ?_, fun _ => rfl, rfl, ?_, rfl, rfl, fun _ => rfl⟩
  · simp [Tree.Layout, exBuilt, exBuiltLeft, Tree.ptr]
  · simp [Tree.Layout, exBuilt, exBuiltRight, Tree.ptr]
  · simp [Tree.Layout, exRemoved, exRemovedTree, exBuiltLeft, Tree.ptr]

/-- C12 fails on the code.  `exFourB` (elements 1, 2, 3, 4; built by four
inserts) is a balanced search tree with correct cached heights.  `remove(1)`
unlinks the node of 1; `balance` at the root then finds the balance factor
`2` and a left-leaning right child (the node of 4, which has no right
child), and calls `rotate_l` on that child: the child on the promoted side
is `nullptr` and is dereferenced. -/
theorem remove_dereferences_nullptr :
    (∀ n, (AvlTree.construct (-1 : Int)).insertAll (n + 3) [2, 1, 4, 3] = .ok exFourB) ∧
    exFourB.root = exFourBTree.ptr ∧ exFourBTree.Layout exFourB ∧ exFourBTree.BST ∧
    exFourBTree.Balanced ∧ exFourBTree.HeightsCorrect ∧
    exFourB.read (.right 2) = .ok none ∧
    rotate_l (.right 0) exFourB = .error .nullDeref ∧
    (∀ n, exFourB.remove (n + 2) 1 = .error .nullDeref) := by
  refine ⟨fun _ => rfl, rfl, ?_, ?_, ?_, ?_, rfl, rfl, fun _ => rfl⟩
  · simp [Tree.Layout, exFourB, exFourBTree, Tree.ptr]
  · simp [Tree.BST, exFourBTree, Tree.elems]
  · simp [Tree.Balanced, exFourBTree, Tree.height, Avl.max]
  · simp [Tree.HeightsCorrect, exFourBTree, Tree.height, Avl.max]

/-- In `exCycleB` the search for 4 goes from the root to its left child and
back, whatever the fuel. -/
theorem find_exCycleB_diverges :
    ∀ (fuel : Nat),
      find exCycleB 4 fuel (some 0) = .error .outOfFuel ∧
      find exCycleB 4 fuel (some 1) = .error .outOfFuel := by
  intro fuel
  induction fuel with
  | zero => exact ⟨rfl, rfl⟩
  | succ f ih =>
    constructor
    · show find exCycleB 4 f (some 1) = .error .outOfFuel
      exact ih.2
    · show find exCycleB 4 f (some 0) = .error .outOfFuel
      exact ih.1

/-- C13 fails on the code.  After `insert(5)`, `insert(3)`, `insert(1)` on an
empty tree the root's left child has the root as its right child, and
`find(4)` never terminates: it runs out of every amount of fuel. -/
theorem find_diverges_after_inserts :
    (∀ n, (AvlTree.construct (-1 : Int)).insertAll (n + 3) [5, 3, 1] = .ok exCycleB) ∧
    exCycleB.root = some 0 ∧
    exCycleB.read (.left 0) = .ok (some 1) ∧ exCycleB.read (.right 1) = .ok (some 0) ∧
    (∀ fuel, exCycleB.find fuel 4 = .error .outOfFuel) := by
  refine ⟨fun _ => rfl, rfl, rfl, rfl, ?_⟩
  intro fuel
  show (find exCycleB 4 fuel (some 0) >>= fun p => elementAt exCycleB p) = .error .outOfFuel
  rw [(find_exCycleB_diverges fuel).1]
  rfl

/-- C15 fails on the code.  On the left chain 3, 2, 1 (`exChain`, correct
cached heights) `rotate_r` at the root returns the left child (the node of
2) and makes the old root its right child, but it overwrites the promoted
node's own left link with its former right link: the promoted node loses
its left subtree (the node of 1), the old root keeps the promoted node as
left child, the cached heights become 2 and 3, and the traversal from the
promoted node does not end. -/
theorem rotate_r_overwrites_child_left :
    exChain.root = exChainTree.ptr ∧ exChainTree.Layout exChain ∧
    exChainTree.HeightsCorrect ∧
    rotate_r .root exChain = .ok (some 1, exChainRot) ∧
    exChainRot.read (.right 1) = .ok (some 0) ∧
    exChainRot.read (.left 1) = .ok none ∧
    exChainRot.read (.left 0) = .ok (some 1) ∧
    height exChainRot (some 0) = .ok 2 ∧ height exChainRot (some 1) = .ok 3 ∧
    (∀ n, find exChainRot 1 (n + 2) (some 1) = .ok none) := by
  refine ⟨rfl, ?_, ?_, rfl, rfl, rfl, rfl, rfl, rfl, fun _ => rfl⟩
  · simp [Tree.Layout, exChain, exChainTree, Tree.ptr]
  · simp [Tree.HeightsCorrect, exChainTree, Tree.height, Avl.max]

/-- C17 fails on the code.  At balance factor `+2` (`exRightHeavy`, the right
chain 2, 3, 4) `balance` calls `rotate_r` on the node, which dereferences
its absent left child; at balance factor `-2` (`exChain`, the left chain
3, 2, 1) `balance` returns the node and the state as they were, so the
subtree it returns is still unbalanced.  In both examples the two subtrees
of the node are balanced and all cached heights are correct. -/
theorem balance_does_not_rebalance :
    exRightHeavy.root = exRightHeavyTree.ptr ∧ exRightHeavyTree.Layout exRightHeavy ∧
    exRightHeavyTree.HeightsCorrect ∧
    (Tree.node 1 .nil 3 1 (.node 2 .nil 4 0 .nil) : Tree Int).Balanced ∧
    balance_factor exRightHeavy exRightHeavy.root = .ok 2 ∧
    balance .root exRightHeavy = .error .nullDeref ∧
    exChain.root = exChainTree.ptr ∧ exChainTree.Layout exChain ∧
    exChainTree.HeightsCorrect ∧
    (Tree.node 1 (.node 2 .nil 1 0 .nil) 2 1 .nil : Tree Int).Balanced ∧
    balance_factor exChain exChain.root = .ok (-2) ∧
    balance .root exChain = .ok (exChain.root, exChain) ∧
    ¬ exChainTree.Balanced := by
  refine ⟨rfl, ?_, ?_, ?_, rfl, rfl, rfl, ?_, ?_, ?_, rfl, rfl, ?_⟩
  · simp [Tree.Layout, exRightHeavy, exRightHeavyTree, Tree.ptr]
  · simp [Tree.HeightsCorrect, exRightHeavyTree, Tree.height, Avl.max]
  · simp [Tree.Balanced, Tree.height, Avl.max]
  · simp [Tree.Layout, exChain, exChainTree, Tree.ptr]
  · simp [Tree.HeightsCorrect, exChainTree, Tree.height, Avl.max]
  · simp [Tree.Balanced, Tree.height, Avl.max]
  · simp [Tree.Balanced, exChainTree, Tree.height, Avl.max]

end Rebalancing

/-! ## The balance helper away from balance factor 2 -/

section BalanceElse

variable {T : Type}

theorem cell_store_self {s : AvlTree T} {a : Nat} {n m : AvlNode T}
    (h : s.heap[a]? = some (some n)) : (s.store a m).heap[a]? = some (some m) := by
  have hlt : a < s.heap.length := by
    by_contra hc
    rw [List.getElem?_eq_none (by omega)] at h
    cases h
  simp [AvlTree.store, List.getElem?_set_self hlt]

theorem cell_store_ne {s : AvlTree T} {a b : Nat} {m : AvlNode T} (h : a ≠ b) :
    (s.store a m).heap[b]? = s.heap[b]? := by
  simp [AvlTree.store, List.getElem?_set_ne h]

theorem load_store_ne {s : AvlTree T} {a b : Nat} {m : AvlNode T} (h : a ≠ b) :
    (s.store a m).load (some b) = s.load (some b) := by
  simp only [AvlTree.load, cell_store_ne h]

/-- Overwriting the cached height of a node changes no pointer stored anywhere. -/
theorem read_store_height {s : AvlTree T} {a : Nat} {nd : AvlNode T} (c : Int)
    (hcell : s.heap[a]? = some (some nd)) (r : Ref) :
    (s.store a { nd with height := c }).read r = s.read r := by
  cases r with
  | root => rfl
  | loc p => rfl
  | left p =>
    by_cases hp : a = p
    · subst hp
      simp only [AvlTree.read, load_of_cell (cell_store_self hcell), load_of_cell hcell, bind,
        Except.bind, pure, Except.pure]
    · simp only [AvlTree.read, load_store_ne hp]
  | right p =>
    by_cases hp : a = p
    · subst hp
      simp only [AvlTree.read, load_of_cell (cell_store_self hcell), load_of_cell hcell, bind,
        Except.bind, pure, Except.pure]
    · simp only [AvlTree.read, load_store_ne hp]

theorem fixheight_eq {s : AvlTree T} {a : Nat} {nd : AvlNode T} {hl hr : Int}
    (hcell : s.heap[a]? = some (some nd))
    (hhl : height s nd.left = .ok hl) (hhr : height s nd.right = .ok hr) :
    fixheight s (some a) = .ok (s.store a { nd with height := Avl.max hl hr + 1 }) := by
  simp only [fixheight, AvlTree.modify, load_of_cell hcell, hhl, hhr, bind, Except.bind, pure,
    Except.pure]

/-- C18: whenever the balance factor of `n`, computed after `fixheight(n)`,
is anything other than `2` (for instance `-2`), `balance(n)` returns `n`
itself, and the state it leaves is the given one with the cached height of
`n` overwritten by `max(height(left), height(right)) + 1` and nothing else
changed: no rotation is run, the second test of `balance` being the first
one again. -/
theorem balance_other_than_two (s : AvlTree T) (n : Ref) (a : Nat) (nd : AvlNode T)
    (hl hr bf : Int)
    (hread : s.read n = .ok (some a)) (hcell : s.heap[a]? = some (some nd))
    (hhl : height s nd.left = .ok hl) (hhr : height s nd.right = .ok hr)
    (hbf : balance_factor (s.store a { nd with height := Avl.max hl hr + 1 }) (some a) = .ok bf)
    (hne : bf ≠ 2) :
    balance n s = .ok (some a, s.store a { nd with height := Avl.max hl hr + 1 }) := by
  have hread2 := read_store_height (Avl.max hl hr + 1) hcell n
  rw [hread] at hread2
  simp only [balance, hread, fixheight_eq hcell hhl hhr, hread2, hbf, bind, Except.bind, pure,
    Except.pure, hne, if_false]

theorem balance_other_than_two_witness :
    balance .root exChain
      = .ok (some 0, exChain.store 0
          { (⟨3, some 1, none, 2⟩ : AvlNode Int) with height := Avl.max 1 (-1) + 1 }) :=
  balance_other_than_two exChain .root 0 ⟨3, some 1, none, 2⟩ 1 (-1) (-2) rfl rfl rfl rfl
    (by rfl) (by decide)

end BalanceElse

/-! ## The balance checker and the height cache -/

section Checker

variable {T : Type}

/-- On a tree laid out in the heap `isBalanced` returns, and its verdict is
the test on the cached heights. -/
theorem isBalanced_of_layout {s : AvlTree T} :
    ∀ (t : Tree T), t.Layout s → ∀ fuel, t.depth < fuel →
      ∃ b, isBalanced s fuel t.ptr = .ok b ∧ (b = true ↔ t.CachedBalanced) := by
  intro t
  induction t with
  | nil =>
    intro _ fuel hf
    cases fuel with
    | zero => simp [Tree.depth] at hf
    | succ fuel => exact ⟨true, rfl, by simp [Tree.CachedBalanced]⟩
  | node a l e c r ihl ihr =>
    intro hlay fuel hf
    cases fuel with
    | zero => simp [Tree.depth] at hf
    | succ fuel =>
      obtain ⟨hcell, hll, hlr⟩ := hlay
      obtain ⟨bl, hbl, hbli⟩ := ihl hll fuel (depth_lt_left hf)
      obtain ⟨br, hbr, hbri⟩ := ihr hlr fuel (depth_lt_right hf)
      show ∃ b, isBalanced s (fuel + 1) (some a) = .ok b ∧
        (b = true ↔ (Tree.node a l e c r).CachedBalanced)
      simp only [isBalanced, load_of_cell hcell, height_of_layout hll,
        height_of_layout hlr, hbl, hbr, bind, Except.bind, pure, Except.pure,
        Tree.CachedBalanced]
      by_cases hd : (if l.cached > r.cached then l.cached - r.cached
          else r.cached - l.cached) ≤ 1
      · have hd2 : l.cached - r.cached ≤ 1 ∧ r.cached - l.cached ≤ 1 := by
          split at hd <;> constructor <;> omega
        simp only [hd, if_true]
        cases bl with
        | false =>
          refine ⟨false, by simp, ?_⟩
          constructor
          · intro h; cases h
          · intro h; exact absurd (hbli.2 h.2.2.1) (by simp)
        | true =>
          cases br with
          | false =>
            refine ⟨false, by simp, ?_⟩
            constructor
            · intro h; cases h
            · intro h; exact absurd (hbri.2 h.2.2.2) (by simp)
          | true =>
            exact ⟨true, by simp, by simp [hd2.1, hd2.2, hbli.1 rfl, hbri.1 rfl]⟩
      · simp only [hd, if_false]
        refine ⟨false, rfl, ?_⟩
        constructor
        · intro h; cases h
        · intro h
          apply absurd _ hd
          split <;> omega

theorem cachedBalanced_of_correct :
    ∀ (t : Tree T), t.HeightsCorrect → (t.CachedBalanced ↔ t.Balanced) := by
  intro t
  induction t with
  | nil => intro _; simp [Tree.CachedBalanced, Tree.Balanced]
  | node a l e c r ihl ihr =>
    intro h
    obtain ⟨_, hcl, hcr⟩ := h
    simp only [Tree.CachedBalanced, Tree.Balanced, cached_of_correct hcl, cached_of_correct hcr,
      ihl hcl, ihr hcr]

/-- C19 fails as stated: `exThree` and `exStale` hold trees of the same shape
and elements whose actual heights are balanced at every node; they differ in
one cached height, and `isBalanced()` returns `true` on the first and `false`
on the second. -/
theorem isBalanced_reads_cache :
    exThree.root = exThreeTree.ptr ∧ exThreeTree.Layout exThree ∧
    exStale.root = exStaleTree.ptr ∧ exStaleTree.Layout exStale ∧
    exThreeTree.SameShape exStaleTree ∧
    exThreeTree.Balanced ∧ exStaleTree.Balanced ∧
    (∀ n, exThree.isBalanced (n + 3) = .ok true) ∧
    (∀ n, exStale.isBalanced (n + 1) = .ok false) := by
  refine ⟨rfl, ?_, rfl, ?_, ?_, ?_, ?_, fun _ => rfl, fun _ => rfl⟩
  · simp [Tree.Layout, exThree, exThreeTree, Tree.ptr]
  · simp [Tree.Layout, exStale, exStaleTree, Tree.ptr]
  · simp [Tree.SameShape, exThreeTree, exStaleTree]
  · simp [Tree.Balanced, exThreeTree, Tree.height, Avl.max]
  · simp [Tree.Balanced, exStaleTree, Tree.height, Avl.max]

/-- C19, amended: `isBalanced` reads the height cache.  On every tree laid
out in the heap it returns `true` exactly when at every node the cached
heights of the two children (`-1` for an absent child) differ by at most 1;
when every cached height is correct, that is exactly when the actual heights
of the two subtrees differ by at most 1 at every node. -/
theorem isBalanced_iff_cached (s : AvlTree T) (t : Tree T) (fuel : Nat)
    (hroot : s.root = t.ptr) (hlay : t.Layout s) (hfuel : t.depth < fuel) :
    ∃ b, s.isBalanced fuel = .ok b ∧ (b = true ↔ t.CachedBalanced) ∧
      (t.HeightsCorrect → (b = true ↔ t.Balanced)) := by
  obtain ⟨b, hb, hbi⟩ := isBalanced_of_layout t hlay fuel hfuel
  refine ⟨b, ?_, hbi, ?_⟩
  · simp only [AvlTree.isBalanced, hroot, hb]
  · intro hc
    exact hbi.trans (cachedBalanced_of_correct t hc)

theorem isBalanced_iff_cached_witness :
    ∃ b, exStale.isBalanced 3 = .ok b ∧ (b = true ↔ exStaleTree.CachedBalanced) ∧
      (exStaleTree.HeightsCorrect → (b = true ↔ exStaleTree.Balanced)) :=
  isBalanced_iff_cached exStale exStaleTree 3 rfl
    (by simp [Tree.Layout, exStale, exStaleTree, Tree.ptr])
    (by decide)

end Checker

/-! ## What insertion never changes -/

section InsertFrame

variable {T : Type}

theorem bind_ok_inv {α β : Type} {m : Except Fault α} {f : α → Except Fault β} {r : β}
    (h : (m >>= f) = .ok r) : ∃ a, m = .ok a ∧ f a = .ok r := by
  cases m with
  | error e => cases h
  | ok a => exact ⟨a, rfl, h⟩

theorem load_ok_inv {s : AvlTree T} {p : Ptr} {n : AvlNode T} (h : s.load p = .ok n) :
    ∃ a, p = some a ∧ s.heap[a]? = some (some n) := by
  cases p with
  | none => cases h
  | some a =>
    refine ⟨a, rfl, ?_⟩
    simp only [AvlTree.load] at h
    split at h
    · cases h; assumption
    · cases h

theorem keeps_refl (s : AvlTree T) : Keeps s s :=
  fun _ nd h => ⟨nd, h, rfl⟩

theorem keeps_trans {s s2 s3 : AvlTree T} (h1 : Keeps s s2) (h2 : Keeps s2 s3) : Keeps s s3 := by
  intro a nd h
  obtain ⟨nd2, hc2, he2⟩ := h1 a nd h
  obtain ⟨nd3, hc3, he3⟩ := h2 a nd2 hc2
  exact ⟨nd3, hc3, he3.trans he2⟩

/-- An assignment to a pointer or height member of a node changes neither
the root pointer nor any element. -/
theorem modify_frame {s s2 : AvlTree T} {p : Ptr} {f : AvlNode T → AvlNode T}
    (h : s.modify p f = .ok s2) (hf : ∀ n, (f n).element = n.element) :
    s2.root = s.root ∧ Keeps s s2 := by
  cases p with
  | none => cases h
  | some a =>
    simp only [AvlTree.modify] at h
    obtain ⟨n, hn, h⟩ := bind_ok_inv h
    obtain ⟨_, hw, hcell⟩ := load_ok_inv hn
    cases hw
    cases h
    refine ⟨rfl, ?_⟩
    intro b nd hb
    by_cases hab : a = b
    · subst hab
      rw [hcell] at hb
      cases hb
      exact ⟨f n, cell_store_self hcell, hf n⟩
    · exact ⟨nd, by rw [cell_store_ne hab]; exact hb, rfl⟩

theorem fixheight_frame {s s2 : AvlTree T} {p : Ptr} (h : fixheight s p = .ok s2) :
    s2.root = s.root ∧ Keeps s s2 := by
  unfold fixheight at h
  obtain ⟨n, _, h⟩ := bind_ok_inv h
  obtain ⟨h1, _, h⟩ := bind_ok_inv h
  obtain ⟨h2, _, h⟩ := bind_ok_inv h
  exact modify_frame h (fun _ => rfl)

theorem rotate_r_frame {s s2 : AvlTree T} {node : Ref} {p : Ptr}
    (h : rotate_r node s = .ok (p, s2)) : s2.root = s.root ∧ Keeps s s2 := by
  unfold rotate_r at h
  obtain ⟨nd, _, h⟩ := bind_ok_inv h
  obtain ⟨n, _, h⟩ := bind_ok_inv h
  obtain ⟨c, _, h⟩ := bind_ok_inv h
  obtain ⟨s3, h3, h⟩ := bind_ok_inv h
  obtain ⟨nd2, _, h⟩ := bind_ok_inv h
  obtain ⟨s4, h4, h⟩ := bind_ok_inv h
  obtain ⟨nd3, _, h⟩ := bind_ok_inv h
  obtain ⟨s5, h5, h⟩ := bind_ok_inv h
  obtain ⟨s6, h6, h⟩ := bind_ok_inv h
  cases h
  have f3 := modify_frame h3 (fun _ => rfl)
  have f4 := modify_frame h4 (fun _ => rfl)
  have f5 := fixheight_frame h5
  have f6 := fixheight_frame h6
  exact ⟨by rw [f6.1, f5.1, f4.1, f3.1],
    keeps_trans (keeps_trans (keeps_trans f3.2 f4.2) f5.2) f6.2⟩

theorem rotate_l_frame {s s2 : AvlTree T} {node : Ref} {p : Ptr}
    (h : rotate_l node s = .ok (p, s2)) : s2.root = s.root ∧ Keeps s s2 := by
  unfold rotate_l at h
  obtain ⟨nd, _, h⟩ := bind_ok_inv h
  obtain ⟨n, _, h⟩ := bind_ok_inv h
  obtain ⟨c, _, h⟩ := bind_ok_inv h
  obtain ⟨nd1, _, h⟩ := bind_ok_inv h
  obtain ⟨s3, h3, h⟩ := bind_ok_inv h
  obtain ⟨nd2, _, h⟩ := bind_ok_inv h
  obtain ⟨s4, h4, h⟩ := bind_ok_inv h
  obtain ⟨nd3, _, h⟩ := bind_ok_inv h
  obtain ⟨s5, h5, h⟩ := bind_ok_inv h
  obtain ⟨s6, h6, h⟩ := bind_ok_inv h
  cases h
  have f3 := modify_frame h3 (fun _ => rfl)
  have f4 := modify_frame h4 (fun _ => rfl)
  have f5 := fixheight_frame h5
  have f6 := fixheight_frame h6
  exact ⟨by rw [f6.1, f5.1, f4.1, f3.1],
    keeps_trans (keeps_trans (keeps_trans f3.2 f4.2) f5.2) f6.2⟩

theorem rotate_lr_frame {s s2 : AvlTree T} {node : Ref} {p : Ptr}
    (h : rotate_lr node s = .ok (p, s2)) : s2.root = s.root ∧ Keeps s s2 := by
  unfold rotate_lr at h
  obtain ⟨nd, _, h⟩ := bind_ok_inv h
  obtain ⟨rf, _, h⟩ := bind_ok_inv h
  obtain ⟨⟨q, s3⟩, h3, h⟩ := bind_ok_inv h
  obtain ⟨nd2, _, h⟩ := bind_ok_inv h
  obtain ⟨s4, h4, h⟩ := bind_ok_inv h
  have f3 := rotate_l_frame h3
  have f4 := modify_frame h4 (fun _ => rfl)
  have f5 := rotate_r_frame h
  exact ⟨by rw [f5.1, f4.1, f3.1], keeps_trans (keeps_trans f3.2 f4.2) f5.2⟩

theorem rotate_rl_frame {s s2 : AvlTree T} {node : Ref} {p : Ptr}
    (h : rotate_rl node s = .ok (p, s2)) : s2.root = s.root ∧ Keeps s s2 := by
  unfold rotate_rl at h
  obtain ⟨nd, _, h⟩ := bind_ok_inv h
  obtain ⟨rf, _, h⟩ := bind_ok_inv h
  obtain ⟨⟨q, s3⟩, h3, h⟩ := bind_ok_inv h
  obtain ⟨nd2, _, h⟩ := bind_ok_inv h
  obtain ⟨s4, h4, h⟩ := bind_ok_inv h
  have f3 := rotate_r_frame h3
  have f4 := modify_frame h4 (fun _ => rfl)
  have f5 := rotate_l_frame h
  exact ⟨by rw [f5.1, f4.1, f3.1], keeps_trans (keeps_trans f3.2 f4.2) f5.2⟩

theorem alloc_frame (s : AvlTree T) (n : AvlNode T) :
    (s.alloc n).2.root = s.root ∧ Keeps s (s.alloc n).2 := by
  refine ⟨rfl, ?_⟩
  intro a nd h
  have hlt : a < s.heap.length := by
    by_contra hc
    rw [List.getElem?_eq_none (by omega)] at h
    cases h
  exact ⟨nd, by simp only [AvlTree.alloc, List.getElem?_append_left hlt, h], rfl⟩

theorem write_frame {s s2 : AvlTree T} {t : Ref} {v : Ptr} (h : s.write t v = .ok s2) :
    Keeps s s2 ∧ (t ≠ .root → s2.root = s.root) := by
  cases t with
  | root =>
    simp only [AvlTree.write] at h
    cases h
    exact ⟨fun _ nd hc => ⟨nd, hc, rfl⟩, fun hne => absurd rfl hne⟩
  | left a =>
    simp only [AvlTree.write] at h
    have f := modify_frame h (fun _ => rfl)
    exact ⟨f.2, fun _ => f.1⟩
  | right a =>
    simp only [AvlTree.write] at h
    have f := modify_frame h (fun _ => rfl)
    exact ⟨f.2, fun _ => f.1⟩
  | loc p =>
    simp only [AvlTree.write] at h
    cases h
    exact ⟨keeps_refl _, fun _ => rfl⟩

variable [LT T] [∀ a b : T, Decidable (a < b)]

omit [LT T] [∀ a b : T, Decidable (a < b)] in
theorem insert_done_frame {s s2 : AvlTree T} {t : Ref} {b : Bool}
    (h : insert_done t s = .ok (b, s2)) : s2.root = s.root ∧ Keeps s s2 := by
  unfold insert_done at h
  obtain ⟨p, _, h⟩ := bind_ok_inv h
  obtain ⟨n, _, h⟩ := bind_ok_inv h
  obtain ⟨hl, _, h⟩ := bind_ok_inv h
  obtain ⟨hr, _, h⟩ := bind_ok_inv h
  obtain ⟨p2, _, h⟩ := bind_ok_inv h
  obtain ⟨s3, h3, h⟩ := bind_ok_inv h
  cases h
  exact modify_frame h3 (fun _ => rfl)

theorem insert_fix_left_frame {s s2 : AvlTree T} {x : T} {t : Ref}
    (h : insert_fix_left x t s = .ok s2) : s2.root = s.root ∧ Keeps s s2 := by
  unfold insert_fix_left at h
  obtain ⟨p, _, h⟩ := bind_ok_inv h
  obtain ⟨n, _, h⟩ := bind_ok_inv h
  obtain ⟨hl, _, h⟩ := bind_ok_inv h
  obtain ⟨hr, _, h⟩ := bind_ok_inv h
  split at h
  · obtain ⟨l, _, h⟩ := bind_ok_inv h
    split at h
    · obtain ⟨⟨q, s3⟩, h3, h⟩ := bind_ok_inv h
      cases h
      exact rotate_r_frame h3
    · obtain ⟨⟨q, s3⟩, h3, h⟩ := bind_ok_inv h
      cases h
      exact rotate_lr_frame h3
  · cases h
    exact ⟨rfl, keeps_refl _⟩

theorem insert_fix_right_frame {s s2 : AvlTree T} {x : T} {t : Ref}
    (h : insert_fix_right x t s = .ok s2) : s2.root = s.root ∧ Keeps s s2 := by
  unfold insert_fix_right at h
  obtain ⟨p, _, h⟩ := bind_ok_inv h
  obtain ⟨n, _, h⟩ := bind_ok_inv h
  obtain ⟨hr, _, h⟩ := bind_ok_inv h
  obtain ⟨hl, _, h⟩ := bind_ok_inv h
  split at h
  · obtain ⟨r, _, h⟩ := bind_ok_inv h
    split at h
    · obtain ⟨⟨q, s3⟩, h3, h⟩ := bind_ok_inv h
      cases h
      exact rotate_l_frame h3
    · obtain ⟨⟨q, s3⟩, h3, h⟩ := bind_ok_inv h
      cases h
      exact rotate_rl_frame h3
  · cases h
    exact ⟨rfl, keeps_refl _⟩

/-- The recursive `insert` keeps every element where it is, and assigns the
root pointer only when that pointer is `nullptr`. -/
theorem insert_frame (x : T) :
    ∀ (fuel : Nat) (t : Ref) (s s2 : AvlTree T) (b : Bool),
      insert x fuel t s = .ok (b, s2) →
        Keeps s s2 ∧ ((t ≠ .root ∨ s.root ≠ none) → s2.root = s.root) := by
  intro fuel
  induction fuel with
  | zero => intro t s s2 b h; cases h
  | succ fuel ih =>
    intro t s s2 b h
    simp only [insert] at h
    obtain ⟨p, hp, h⟩ := bind_ok_inv h
    cases p with
    | none =>
      simp only at h
      obtain ⟨s3, h3, h⟩ := bind_ok_inv h
      have fa := alloc_frame s ⟨x, none, none, 0⟩
      have fw := write_frame h3
      have fd := insert_done_frame h
      refine ⟨keeps_trans (keeps_trans fa.2 fw.1) fd.2, ?_⟩
      intro hne
      have htr : t ≠ .root := by
        rcases hne with hne | hne
        · exact hne
        · intro ht
          subst ht
          simp only [AvlTree.read, Except.ok.injEq] at hp
          exact hne hp
      rw [fd.1, fw.2 htr, fa.1]
    | some a =>
      simp only at h
      obtain ⟨n, hn, h⟩ := bind_ok_inv h
      split at h
      · obtain ⟨⟨b1, s3⟩, h3, h⟩ := bind_ok_inv h
        have f3 := ih (.left a) s s3 b1 h3
        have hr3 : s3.root = s.root := f3.2 (Or.inl (by simp))
        cases b1 with
        | false =>
          simp only [pure, Except.pure, Except.ok.injEq, Prod.mk.injEq] at h
          obtain ⟨_, hs⟩ := h
          subst hs
          exact ⟨f3.1, fun _ => hr3⟩
        | true =>
          simp only at h
          obtain ⟨s4, h4, h⟩ := bind_ok_inv h
          have f4 := insert_fix_left_frame h4
          have f5 := insert_done_frame h
          exact ⟨keeps_trans (keeps_trans f3.1 f4.2) f5.2,
            fun _ => by rw [f5.1, f4.1, hr3]⟩
      · split at h
        · obtain ⟨⟨b1, s3⟩, h3, h⟩ := bind_ok_inv h
          have f3 := ih (.right a) s s3 b1 h3
          have hr3 : s3.root = s.root := f3.2 (Or.inl (by simp))
          cases b1 with
          | false =>
            simp only [pure, Except.pure, Except.ok.injEq, Prod.mk.injEq] at h
            obtain ⟨_, hs⟩ := h
            subst hs
            exact ⟨f3.1, fun _ => hr3⟩
          | true =>
            simp only at h
            obtain ⟨s4, h4, h⟩ := bind_ok_inv h
            have f4 := insert_fix_right_frame h4
            have f5 := insert_done_frame h
            exact ⟨keeps_trans (keeps_trans f3.1 f4.2) f5.2,
              fun _ => by rw [f5.1, f4.1, hr3]⟩
        · simp only [pure, Except.pure, Except.ok.injEq, Prod.mk.injEq] at h
          obtain ⟨_, hs⟩ := h
          subst hs
          exact ⟨keeps_refl _, fun _ => rfl⟩

/-! Only the recursion of `insert` consumes fuel: the helpers it calls stop
after a bounded number of steps. -/

omit [LT T] [∀ a b : T, Decidable (a < b)] in
theorem ne_fuel_bind {α β : Type} {m : Except Fault α} {f : α → Except Fault β}
    (hm : m ≠ .error .outOfFuel) (hf : ∀ a, f a ≠ .error .outOfFuel) :
    (m >>= f) ≠ .error .outOfFuel := by
  cases m with
  | error e =>
    intro h
    apply hm
    simp only [bind, Except.bind] at h
    cases h
    rfl
  | ok a => exact hf a

omit [LT T] [∀ a b : T, Decidable (a < b)] in
theorem load_ne_fuel (s : AvlTree T) (p : Ptr) : s.load p ≠ .error .outOfFuel := by
  cases p with
  | none => simp [AvlTree.load]
  | some a =>
    simp only [AvlTree.load]
    split <;> simp

omit [LT T] [∀ a b : T, Decidable (a < b)] in
theorem pure_ne_fuel {α : Type} (a : α) : (pure a : Except Fault α) ≠ .error .outOfFuel := by
  simp [pure, Except.pure]

omit [LT T] [∀ a b : T, Decidable (a < b)] in
theorem read_ne_fuel (s : AvlTree T) (r : Ref) : s.read r ≠ .error .outOfFuel := by
  cases r with
  | root => simp [AvlTree.read]
  | loc p => simp [AvlTree.read]
  | left a => exact ne_fuel_bind (load_ne_fuel _ _) (fun _ => pure_ne_fuel _)
  | right a => exact ne_fuel_bind (load_ne_fuel _ _) (fun _ => pure_ne_fuel _)

omit [LT T] [∀ a b : T, Decidable (a < b)] in
theorem modify_ne_fuel (s : AvlTree T) (p : Ptr) (f : AvlNode T → AvlNode T) :
    s.modify p f ≠ .error .outOfFuel := by
  cases p with
  | none => simp [AvlTree.modify]
  | some a => exact ne_fuel_bind (load_ne_fuel _ _) (fun _ => pure_ne_fuel _)

omit [LT T] [∀ a b : T, Decidable (a < b)] in
theorem write_ne_fuel (s : AvlTree T) (r : Ref) (v : Ptr) :
    s.write r v ≠ .error .outOfFuel := by
  cases r with
  | root => simp [AvlTree.write]
  | loc p => simp [AvlTree.write]
  | left a => simp only [AvlTree.write]; exact modify_ne_fuel _ _ _
  | right a => simp only [AvlTree.write]; exact modify_ne_fuel _ _ _

omit [LT T] [∀ a b : T, Decidable (a < b)] in
theorem height_ne_fuel (s : AvlTree T) (p : Ptr) : height s p ≠ .error .outOfFuel := by
  cases p with
  | none => simp [height]
  | some a => exact ne_fuel_bind (load_ne_fuel _ _) (fun _ => pure_ne_fuel _)

omit [LT T] [∀ a b : T, Decidable (a < b)] in
theorem leftOf_ne_fuel (p : Ptr) : leftOf p ≠ .error .outOfFuel := by
  cases p <;> simp [leftOf]

omit [LT T] [∀ a b : T, Decidable (a < b)] in
theorem rightOf_ne_fuel (p : Ptr) : rightOf p ≠ .error .outOfFuel := by
  cases p <;> simp [rightOf]

omit [LT T] [∀ a b : T, Decidable (a < b)] in
theorem fixheight_ne_fuel (s : AvlTree T) (p : Ptr) : fixheight s p ≠ .error .outOfFuel :=
  ne_fuel_bind (load_ne_fuel _ _) fun _ =>
    ne_fuel_bind (height_ne_fuel _ _) fun _ =>
      ne_fuel_bind (height_ne_fuel _ _) fun _ => modify_ne_fuel _ _ _

omit [LT T] [∀ a b : T, Decidable (a < b)] in
theorem rotate_r_ne_fuel (node : Ref) (s : AvlTree T) :
    rotate_r node s ≠ .error .outOfFuel :=
  ne_fuel_bind (read_ne_fuel _ _) fun _ =>
    ne_fuel_bind (load_ne_fuel _ _) fun _ =>
      ne_fuel_bind (load_ne_fuel _ _) fun _ =>
        ne_fuel_bind (modify_ne_fuel _ _ _) fun _ =>
          ne_fuel_bind (read_ne_fuel _ _) fun _ =>
            ne_fuel_bind (modify_ne_fuel _ _ _) fun _ =>
              ne_fuel_bind (read_ne_fuel _ _) fun _ =>
                ne_fuel_bind (fixheight_ne_fuel _ _) fun _ =>
                  ne_fuel_bind (fixheight_ne_fuel _ _) fun _ => pure_ne_fuel _

omit [LT T] [∀ a b : T, Decidable (a < b)] in
theorem rotate_l_ne_fuel (node : Ref) (s : AvlTree T) :
    rotate_l node s ≠ .error .outOfFuel :=
  ne_fuel_bind (read_ne_fuel _ _) fun _ =>
    ne_fuel_bind (load_ne_fuel _ _) fun _ =>
      ne_fuel_bind (load_ne_fuel _ _) fun _ =>
        ne_fuel_bind (read_ne_fuel _ _) fun _ =>
          ne_fuel_bind (modify_ne_fuel _ _ _) fun _ =>
            ne_fuel_bind (read_ne_fuel _ _) fun _ =>
              ne_fuel_bind (modify_ne_fuel _ _ _) fun _ =>
                ne_fuel_bind (read_ne_fuel _ _) fun _ =>
                  ne_fuel_bind (fixheight_ne_fuel _ _) fun _ =>
                    ne_fuel_bind (fixheight_ne_fuel _ _) fun _ => pure_ne_fuel _

omit [LT T] [∀ a b : T, Decidable (a < b)] in
theorem rotate_lr_ne_fuel (node : Ref) (s : AvlTree T) :
    rotate_lr node s ≠ .error .outOfFuel :=
  ne_fuel_bind (read_ne_fuel _ _) fun _ =>
    ne_fuel_bind (leftOf_ne_fuel _) fun _ =>
      ne_fuel_bind (rotate_l_ne_fuel _ _) fun _ =>
        ne_fuel_bind (read_ne_fuel _ _) fun _ =>
          ne_fuel_bind (modify_ne_fuel _ _ _) fun _ => rotate_r_ne_fuel _ _

omit [LT T] [∀ a b : T, Decidable (a < b)] in
theorem rotate_rl_ne_fuel (node : Ref) (s : AvlTree T) :
    rotate_rl node s ≠ .error .outOfFuel :=
  ne_fuel_bind (read_ne_fuel _ _) fun _ =>
    ne_fuel_bind (rightOf_ne_fuel _) fun _ =>
      ne_fuel_bind (rotate_r_ne_fuel _ _) fun _ =>
        ne_fuel_bind (read_ne_fuel _ _) fun _ =>
          ne_fuel_bind (modify_ne_fuel _ _ _) fun _ => rotate_l_ne_fuel _ _

omit [LT T] [∀ a b : T, Decidable (a < b)] in
theorem insert_done_ne_fuel (t : Ref) (s : AvlTree T) :
    insert_done t s ≠ .error .outOfFuel :=
  ne_fuel_bind (read_ne_fuel _ _) fun _ =>
    ne_fuel_bind (load_ne_fuel _ _) fun _ =>
      ne_fuel_bind (height_ne_fuel _ _) fun _ =>
        ne_fuel_bind (height_ne_fuel _ _) fun _ =>
          ne_fuel_bind (read_ne_fuel _ _) fun _ =>
            ne_fuel_bind (modify_ne_fuel _ _ _) fun _ => pure_ne_fuel _

theorem insert_fix_left_ne_fuel (x : T) (t : Ref) (s : AvlTree T) :
    insert_fix_left x t s ≠ .error .outOfFuel := by
  unfold insert_fix_left
  refine ne_fuel_bind (read_ne_fuel _ _) fun _ =>
    ne_fuel_bind (load_ne_fuel _ _) fun _ =>
      ne_fuel_bind (height_ne_fuel _ _) fun _ =>
        ne_fuel_bind (height_ne_fuel _ _) fun _ => ?_
  split
  · refine ne_fuel_bind (load_ne_fuel _ _) fun _ => ?_
    split
    · exact ne_fuel_bind (rotate_r_ne_fuel _ _) fun _ => pure_ne_fuel _
    · exact ne_fuel_bind (rotate_lr_ne_fuel _ _) fun _ => pure_ne_fuel _
  · exact pure_ne_fuel _

theorem insert_fix_right_ne_fuel (x : T) (t : Ref) (s : AvlTree T) :
    insert_fix_right x t s ≠ .error .outOfFuel := by
  unfold insert_fix_right
  refine ne_fuel_bind (read_ne_fuel _ _) fun _ =>
    ne_fuel_bind (load_ne_fuel _ _) fun _ =>
      ne_fuel_bind (height_ne_fuel _ _) fun _ =>
        ne_fuel_bind (height_ne_fuel _ _) fun _ => ?_
  split
  · refine ne_fuel_bind (load_ne_fuel _ _) fun _ => ?_
    split
    · exact ne_fuel_bind (rotate_l_ne_fuel _ _) fun _ => pure_ne_fuel _
    · exact ne_fuel_bind (rotate_rl_ne_fuel _ _) fun _ => pure_ne_fuel _
  · exact pure_ne_fuel _

/-- On a tree laid out in the heap the recursion of `insert` ends within the
depth of the tree. -/
theorem insert_ne_fuel {s : AvlTree T} (x : T) :
    ∀ (t : Tree T), t.Layout s → ∀ fuel r, t.depth < fuel → s.read r = .ok t.ptr →
      insert x fuel r s ≠ .error .outOfFuel := by
  intro t
  induction t with
  | nil =>
    intro _ fuel ref hf hread
    cases fuel with
    | zero => simp [Tree.depth] at hf
    | succ fuel =>
      simp only [Tree.ptr] at hread
      simp only [insert, hread, bind, Except.bind, pure, Except.pure]
      exact ne_fuel_bind (write_ne_fuel _ _ _) fun _ => insert_done_ne_fuel _ _
  | node a l e c r ihl ihr =>
    intro hlay fuel ref hf hread
    cases fuel with
    | zero => simp [Tree.depth] at hf
    | succ fuel =>
      obtain ⟨hcell, hll, hlr⟩ := hlay
      simp only [Tree.ptr] at hread
      simp only [insert, hread, load_of_cell hcell, bind, Except.bind, pure, Except.pure]
      have tail_left : ∀ (res : Bool × AvlTree T),
          (match res with
            | (false, s) => (Except.ok (false, s) : Except Fault (Bool × AvlTree T))
            | (true, s) => insert_fix_left x ref s >>= fun s => insert_done ref s)
          ≠ .error .outOfFuel := by
        rintro ⟨b, s1⟩
        cases b with
        | false => simp
        | true => exact ne_fuel_bind (insert_fix_left_ne_fuel _ _ _) fun _ =>
            insert_done_ne_fuel _ _
      have tail_right : ∀ (res : Bool × AvlTree T),
          (match res with
            | (false, s) => (Except.ok (false, s) : Except Fault (Bool × AvlTree T))
            | (true, s) => insert_fix_right x ref s >>= fun s => insert_done ref s)
          ≠ .error .outOfFuel := by
        rintro ⟨b, s1⟩
        cases b with
        | false => simp
        | true => exact ne_fuel_bind (insert_fix_right_ne_fuel _ _ _) fun _ =>
            insert_done_ne_fuel _ _
      split
      · exact ne_fuel_bind
          (ihl hll fuel (.left a) (depth_lt_left hf) (read_left_of_cell hcell)) tail_left
      · split
        · exact ne_fuel_bind
            (ihr hlr fuel (.right a) (depth_lt_right hf) (read_right_of_cell hcell)) tail_right
        · simp

/-- C20: if the tree is not empty, `insert(x)` leaves the root pointer and
the element of the root node as they were, for every state of the heap
(a tree or not) and every outcome of the rotations it runs: the root pointer
is assigned only when it is `nullptr`, the pointers the rotations return
are dropped, and no assignment changes an element.  On a tree laid out in
the heap the call does not run on for ever: its recursion ends within the
depth of the tree. -/
theorem insert_keeps_root (s : AvlTree T) (x : T) (fuel : Nat) (a : Nat) (nd : AvlNode T)
    (hroot : s.root = some a) (hcell : s.heap[a]? = some (some nd)) :
    (∀ s2, s.insert fuel x = .ok s2 →
      s2.root = some a ∧ elementAt s2 s2.root = .ok nd.element) ∧
    (∀ t : Tree T, s.root = t.ptr → t.Layout s → t.depth < fuel →
      s.insert fuel x ≠ .error .outOfFuel) := by
  constructor
  · intro s2 hins
    simp only [AvlTree.insert] at hins
    obtain ⟨⟨b, s3⟩, h3, h⟩ := bind_ok_inv hins
    cases h
    have f := insert_frame x fuel .root s s3 b h3
    have hr : s3.root = some a := by
      rw [f.2 (Or.inr (by rw [hroot]; simp)), hroot]
    obtain ⟨nd2, hc2, he2⟩ := f.1 a nd hcell
    refine ⟨hr, ?_⟩
    rw [hr, elementAt_of_cell hc2, he2]
  · intro t ht hlay hf
    have hread : s.read .root = .ok t.ptr := by simp [AvlTree.read, ht]
    exact ne_fuel_bind (insert_ne_fuel x t hlay fuel .root hf hread) fun _ => pure_ne_fuel _

theorem insert_keeps_root_witness :
    (∀ s2, exTwo.insert 3 3 = .ok s2 →
      s2.root = some 0 ∧ elementAt s2 s2.root = .ok (⟨1, none, some 1, 1⟩ : AvlNode Int).element) ∧
    (∀ t : Tree Int, exTwo.root = t.ptr → t.Layout exTwo → t.depth < 3 →
      exTwo.insert 3 3 ≠ .error .outOfFuel) :=
  insert_keeps_root exTwo 3 3 0 ⟨1, none, some 1, 1⟩ rfl rfl

end InsertFrame

/-! ## The left rotation -/

section RotateLeft

variable {T : Type}

/-- Overwriting a cell outside a tree leaves the tree laid out. -/
theorem layout_store {s : AvlTree T} {a : Nat} {m : AvlNode T} :
    ∀ (t : Tree T), t.Layout s → a ∉ t.addrs → t.Layout (s.store a m) := by
  intro t
  induction t with
  | nil => intro _ _; trivial
  | node b l e c r ihl ihr =>
    intro hlay hna
    obtain ⟨hcell, hll, hlr⟩ := hlay
    simp only [Tree.addrs, List.mem_cons, List.mem_append, not_or] at hna
    obtain ⟨hab, hal, har⟩ := hna
    exact ⟨by rw [cell_store_ne hab]; exact hcell, ihl hll hal, ihr hlr har⟩

theorem read_store_cell_ne {s : AvlTree T} {a : Nat} {m : AvlNode T} {r : Ref}
    (h : r.cell ≠ some a) : (s.store a m).read r = s.read r := by
  cases r with
  | root => rfl
  | loc p => rfl
  | left p =>
    have hp : a ≠ p := fun e => h (by rw [e]; rfl)
    simp only [AvlTree.read, load_store_ne hp]
  | right p =>
    have hp : a ≠ p := fun e => h (by rw [e]; rfl)
    simp only [AvlTree.read, load_store_ne hp]

theorem ptr_mem_addrs {t : Tree T} {a : Nat} (h : t.ptr = some a) : a ∈ t.addrs := by
  cases t with
  | nil => cases h
  | node b l e c r =>
    simp only [Tree.ptr, Option.some.injEq] at h
    subst h
    simp [Tree.addrs]

/-- A place that holds the pointer to the root of a tree is not a member of
the root node itself, when the nodes of the tree are pairwise distinct. -/
theorem ref_outside_root {s : AvlTree T} {ref : Ref} {a : Nat} {l r : Tree T} {x : T} {c : Int}
    (hlay : (Tree.node a l x c r).Layout s) (hnd : (Tree.node a l x c r).addrs.Nodup)
    (hread : s.read ref = .ok (some a)) : ref.cell ≠ some a := by
  obtain ⟨hcell, _, _⟩ := hlay
  simp only [Tree.addrs, List.nodup_cons, List.mem_append, not_or] at hnd
  obtain ⟨⟨hal, har⟩, _⟩ := hnd
  cases ref with
  | root => simp [Ref.cell]
  | loc p => simp [Ref.cell]
  | left p =>
    intro hp
    simp only [Ref.cell, Option.some.injEq] at hp
    subst hp
    rw [read_left_of_cell hcell] at hread
    simp only [Except.ok.injEq] at hread
    exact hal (ptr_mem_addrs hread)
  | right p =>
    intro hp
    simp only [Ref.cell, Option.some.injEq] at hp
    subst hp
    rw [read_right_of_cell hcell] at hread
    simp only [Except.ok.injEq] at hread
    exact har (ptr_mem_addrs hread)

/-- Such a place is not a member of a child of the root either. -/
theorem ref_outside_child {s : AvlTree T} {ref : Ref} {a : Nat}
    {b : Nat} {l r : Tree T} {x : T} {c : Int}
    (hlay : (Tree.node b l x c r).Layout s) (hal : a ∉ l.addrs) (har : a ∉ r.addrs)
    (hread : s.read ref = .ok (some a)) : ref.cell ≠ some b := by
  obtain ⟨hcell, _, _⟩ := hlay
  cases ref with
  | root => simp [Ref.cell]
  | loc p => simp [Ref.cell]
  | left p =>
    intro hp
    simp only [Ref.cell, Option.some.injEq] at hp
    subst hp
    rw [read_left_of_cell hcell] at hread
    simp only [Except.ok.injEq] at hread
    exact hal (ptr_mem_addrs hread)
  | right p =>
    intro hp
    simp only [Ref.cell, Option.some.injEq] at hp
    subst hp
    rw [read_right_of_cell hcell] at hread
    simp only [Except.ok.injEq] at hread
    exact har (ptr_mem_addrs hread)

/-- C16: on a tree whose nodes are pairwise distinct, with a non-empty right
child and correct cached heights in the three subtrees, `rotate_l` returns
the right child `b`; afterwards the heap holds the tree with `b` on top, the
old root `a` as its left child, the former left subtree of `b` as right
subtree of `a`, and the other two subtrees where they were; the in-order
sequence is unchanged, the cached heights of `a` and `b` are correct, and the
place `node` still holds the pointer to `a`. -/
theorem rotate_l_correct (s : AvlTree T) (node : Ref) (a b : Nat) (l rl rr : Tree T)
    (x y : T) (c cr : Int)
    (hread : s.read node = .ok (some a))
    (hlay : (Tree.node a l x c (Tree.node b rl y cr rr)).Layout s)
    (hnd : (Tree.node a l x c (Tree.node b rl y cr rr)).addrs.Nodup)
    (hcl : l.HeightsCorrect) (hcrl : rl.HeightsCorrect) (hcrr : rr.HeightsCorrect) :
    ∃ s2 c1 c2, rotate_l node s = .ok (some b, s2) ∧
      (Tree.node b (Tree.node a l x c1 rl) y c2 rr).Layout s2 ∧
      (Tree.node b (Tree.node a l x c1 rl) y c2 rr).HeightsCorrect ∧
      (Tree.node b (Tree.node a l x c1 rl) y c2 rr).elems
        = (Tree.node a l x c (Tree.node b rl y cr rr)).elems ∧
      s2.read node = .ok (some a) ∧ s2.root = s.root := by
  have hra := ref_outside_root hlay hnd hread
  obtain ⟨hca, hll, hlayb⟩ := hlay
  have hnd2 := hnd
  simp only [Tree.addrs, List.nodup_cons, List.mem_append, List.mem_cons, not_or,
    List.nodup_append] at hnd2
  obtain ⟨⟨hal, hab, harl, harr⟩, _, ⟨⟨hbrl, hbrr⟩, _⟩, hdis⟩ := hnd2
  have hbl : b ∉ l.addrs := fun hm => hdis hm (List.mem_cons_self _ _)
  have hrb : node.cell ≠ some b := ref_outside_child hlayb harl harr hread
  obtain ⟨hcb, hlrl, hlrr⟩ := hlayb
  have hca0 : s.heap[a]? = some (some ⟨x, l.ptr, some b, c⟩) := hca
  have hba : b ≠ a := fun e => hab e.symm
  -- `node->right = child->left`
  obtain ⟨s1, hs1⟩ : ∃ s1, s1 = s.store a ⟨x, l.ptr, rl.ptr, c⟩ := ⟨_, rfl⟩
  have e1 : s.modify (some a) (fun m => { m with right := rl.ptr }) = .ok s1 := by
    simp only [AvlTree.modify, load_of_cell hca0, bind, Except.bind, pure, Except.pure, hs1]
  have hr1 : s1.read node = .ok (some a) := by
    rw [hs1, read_store_cell_ne hra]; exact hread
  have hca1 : s1.heap[a]? = some (some ⟨x, l.ptr, rl.ptr, c⟩) := by
    rw [hs1]; exact cell_store_self hca0
  have hcb1 : s1.heap[b]? = some (some ⟨y, rl.ptr, rr.ptr, cr⟩) := by
    rw [hs1, cell_store_ne hab]; exact hcb
  -- `child->left = node`
  obtain ⟨s2, hs2⟩ : ∃ s2, s2 = s1.store b ⟨y, some a, rr.ptr, cr⟩ := ⟨_, rfl⟩
  have e2 : s1.modify (some b) (fun m => { m with left := some a }) = .ok s2 := by
    simp only [AvlTree.modify, load_of_cell hcb1, bind, Except.bind, pure, Except.pure, hs2]
  have hr2 : s2.read node = .ok (some a) := by
    rw [hs2, read_store_cell_ne hrb]; exact hr1
  have hca2 : s2.heap[a]? = some (some ⟨x, l.ptr, rl.ptr, c⟩) := by
    rw [hs2, cell_store_ne hba]; exact hca1
  have hcb2 : s2.heap[b]? = some (some ⟨y, some a, rr.ptr, cr⟩) := by
    rw [hs2]; exact cell_store_self hcb1
  have hl2 : l.Layout s2 := by
    rw [hs2, hs1]; exact layout_store _ (layout_store _ hll hal) hbl
  have hrl2 : rl.Layout s2 := by
    rw [hs2, hs1]; exact layout_store _ (layout_store _ hlrl harl) hbrl
  have hrr2 : rr.Layout s2 := by
    rw [hs2, hs1]; exact layout_store _ (layout_store _ hlrr harr) hbrr
  -- `fixheight(node)`
  obtain ⟨c1, hc1⟩ : ∃ c1, c1 = Avl.max l.cached rl.cached + 1 := ⟨_, rfl⟩
  obtain ⟨s3, hs3⟩ : ∃ s3, s3 = s2.store a ⟨x, l.ptr, rl.ptr, c1⟩ := ⟨_, rfl⟩
  have e3 : fixheight s2 (some a) = .ok s3 := by
    rw [fixheight_eq hca2 (height_of_layout hl2) (height_of_layout hrl2), hs3, hc1]
  have hr3 : s3.read node = .ok (some a) := by
    rw [hs3, read_store_cell_ne hra]; exact hr2
  have hca3 : s3.heap[a]? = some (some ⟨x, l.ptr, rl.ptr, c1⟩) := by
    rw [hs3]; exact cell_store_self hca2
  have hcb3 : s3.heap[b]? = some (some ⟨y, some a, rr.ptr, cr⟩) := by
    rw [hs3, cell_store_ne hab]; exact hcb2
  have hha3 : height s3 (some a) = .ok c1 := by
    simp only [height, load_of_cell hca3, bind, Except.bind, pure, Except.pure]
  have hrr3 : rr.Layout s3 := by
    rw [hs3]; exact layout_store _ hrr2 harr
  -- `fixheight(child)`
  obtain ⟨c2, hc2⟩ : ∃ c2, c2 = Avl.max c1 rr.cached + 1 := ⟨_, rfl⟩
  obtain ⟨s4, hs4⟩ : ∃ s4, s4 = s3.store b ⟨y, some a, rr.ptr, c2⟩ := ⟨_, rfl⟩
  have e4 : fixheight s3 (some b) = .ok s4 := by
    rw [fixheight_eq hcb3 hha3 (height_of_layout hrr3), hs4, hc2]
  have hr4 : s4.read node = .ok (some a) := by
    rw [hs4, read_store_cell_ne hrb]; exact hr3
  have hca4 : s4.heap[a]? = some (some ⟨x, l.ptr, rl.ptr, c1⟩) := by
    rw [hs4, cell_store_ne hba]; exact hca3
  have hcb4 : s4.heap[b]? = some (some ⟨y, some a, rr.ptr, c2⟩) := by
    rw [hs4]; exact cell_store_self hcb3
  have hl4 : l.Layout s4 := by
    rw [hs4, hs3]; exact layout_store _ (layout_store _ hl2 hal) hbl
  have hrl4 : rl.Layout s4 := by
    rw [hs4, hs3]; exact layout_store _ (layout_store _ hrl2 harl) hbrl
  have hrr4 : rr.Layout s4 := by
    rw [hs4]; exact layout_store _ hrr3 hbrr
  have hroot : s4.root = s.root := by
    rw [hs4, hs3, hs2, hs1]; rfl
  refine ⟨s4, c1, c2, ?_, ⟨hcb4, ⟨hca4, hl4, hrl4⟩, hrr4⟩, ?_, ?_, hr4, hroot⟩
  · simp only [rotate_l, hread, load_of_cell hca0, load_of_cell hcb, bind, Except.bind, pure,
      Except.pure, e1, hr1, e2, hr2, e3, e4]
  · have h1 : c1 = (Tree.node a l x c1 rl).height := by
      rw [hc1, Tree.height, cached_of_correct hcl, cached_of_correct hcrl]
    refine ⟨?_, ⟨h1, hcl, hcrl⟩, hcrr⟩
    rw [hc2, Tree.height, ← h1, cached_of_correct hcrr]
  · simp only [Tree.elems, List.append_assoc, List.cons_append]

theorem rotate_l_correct_witness :
    ∃ s2 c1 c2, rotate_l .root exRightHeavy = .ok (some 1, s2) ∧
      (Tree.node 1 (Tree.node 0 .nil 2 c1 .nil) 3 c2 (.node 2 .nil 4 0 .nil)).Layout s2 ∧
      (Tree.node 1 (Tree.node 0 .nil 2 c1 .nil) 3 c2 (.node 2 .nil 4 0 .nil)).HeightsCorrect ∧
      (Tree.node 1 (Tree.node 0 .nil 2 c1 .nil) 3 c2 (.node 2 .nil 4 0 .nil) : Tree Int).elems
        = (Tree.node 0 .nil 2 2 (Tree.node 1 .nil 3 1 (.node 2 .nil 4 0 .nil)) : Tree Int).elems ∧
      s2.read .root = .ok (some 0) ∧ s2.root = exRightHeavy.root :=
  rotate_l_correct exRightHeavy .root 0 1 .nil .nil (.node 2 .nil 4 0 .nil) 2 3 2 1 rfl
    (by simp [Tree.Layout, exRightHeavy, Tree.ptr])
    (by simp [Tree.addrs])
    (by simp [Tree.HeightsCorrect])
    (by simp [Tree.HeightsCorrect])
    (by simp [Tree.HeightsCorrect, Tree.height, Avl.max])

end RotateLeft

/-! ## Deep copy -/

section Clone

variable {T : Type}

theorem cell_extend {s : AvlTree T} {ext : List (Option (AvlNode T))} {a : Nat}
    (h : a < s.heap.length) : (s.extend ext).heap[a]? = s.heap[a]? := by
  simp only [AvlTree.extend, List.getElem?_append_left h]

theorem cell_lt_length {s : AvlTree T} {a : Nat} {n : AvlNode T}
    (h : s.heap[a]? = some (some n)) : a < s.heap.length := by
  by_contra hc
  rw [List.getElem?_eq_none (by omega)] at h
  cases h

/-- Allocation leaves every tree laid out. -/
theorem layout_extend {s : AvlTree T} (ext : List (Option (AvlNode T))) :
    ∀ (t : Tree T), t.Layout s → t.Layout (s.extend ext) := by
  intro t
  induction t with
  | nil => intro _; trivial
  | node a l e c r ihl ihr =>
    intro h
    obtain ⟨hcell, hl, hr⟩ := h
    exact ⟨by rw [cell_extend (cell_lt_length hcell)]; exact hcell, ihl hl, ihr hr⟩

theorem cell_extend_new (s : AvlTree T) (n : AvlNode T) :
    (s.extend [some n]).heap[s.heap.length]? = some (some n) := by
  simp [AvlTree.extend]

theorem extend_extend (s : AvlTree T) (e1 e2 : List (Option (AvlNode T))) :
    (s.extend e1).extend e2 = s.extend (e1 ++ e2) := by
  simp only [AvlTree.extend, List.append_assoc]

theorem same_elems : ∀ (t t2 : Tree T), t.Same t2 → t2.elems = t.elems := by
  intro t
  induction t with
  | nil =>
    intro t2 h
    cases t2 with
    | nil => rfl
    | node _ _ _ _ _ => exact absurd h (by simp [Tree.Same])
  | node a l e c r ihl ihr =>
    intro t2 h
    cases t2 with
    | nil => exact absurd h (by simp [Tree.Same])
    | node a2 l2 e2 c2 r2 =>
      simp only [Tree.Same] at h
      obtain ⟨he, _, hl, hr⟩ := h
      simp only [Tree.elems, ihl l2 hl, ihr r2 hr, he]

theorem same_depth : ∀ (t t2 : Tree T), t.Same t2 → t2.depth = t.depth := by
  intro t
  induction t with
  | nil =>
    intro t2 h
    cases t2 with
    | nil => rfl
    | node _ _ _ _ _ => exact absurd h (by simp [Tree.Same])
  | node a l e c r ihl ihr =>
    intro t2 h
    cases t2 with
    | nil => exact absurd h (by simp [Tree.Same])
    | node a2 l2 e2 c2 r2 =>
      simp only [Tree.Same] at h
      obtain ⟨_, _, hl, hr⟩ := h
      simp only [Tree.depth, ihl l2 hl, ihr r2 hr]

theorem same_cached {t t2 : Tree T} (h : t.Same t2) : t2.cached = t.cached := by
  cases t with
  | nil =>
    cases t2 with
    | nil => rfl
    | node _ _ _ _ _ => exact absurd h (by simp [Tree.Same])
  | node a l e c r =>
    cases t2 with
    | nil => exact absurd h (by simp [Tree.Same])
    | node a2 l2 e2 c2 r2 =>
      simp only [Tree.Same] at h
      exact h.2.1.symm

theorem same_cachedBalanced :
    ∀ (t t2 : Tree T), t.Same t2 → (t2.CachedBalanced ↔ t.CachedBalanced) := by
  intro t
  induction t with
  | nil =>
    intro t2 h
    cases t2 with
    | nil => rfl
    | node _ _ _ _ _ => exact absurd h (by simp [Tree.Same])
  | node a l e c r ihl ihr =>
    intro t2 h
    cases t2 with
    | nil => exact absurd h (by simp [Tree.Same])
    | node a2 l2 e2 c2 r2 =>
      simp only [Tree.Same] at h
      obtain ⟨_, _, hl, hr⟩ := h
      simp only [Tree.CachedBalanced, same_cached hl, same_cached hr, ihl l2 hl, ihr r2 hr]

/-- On a tree laid out in the heap the traversal appends the elements in order. -/
theorem printTree_of_layout {s : AvlTree T} :
    ∀ (t : Tree T), t.Layout s → ∀ fuel stream, t.depth < fuel →
      printTree s fuel t.ptr stream = .ok (stream ++ t.elems) := by
  intro t
  induction t with
  | nil =>
    intro _ fuel stream hf
    cases fuel with
    | zero => simp [Tree.depth] at hf
    | succ fuel => simp [Tree.ptr, printTree, Tree.elems]
  | node a l e c r ihl ihr =>
    intro hlay fuel stream hf
    cases fuel with
    | zero => simp [Tree.depth] at hf
    | succ fuel =>
      obtain ⟨hcell, hll, hlr⟩ := hlay
      show printTree s (fuel + 1) (some a) stream = _
      simp only [printTree, load_of_cell hcell, bind, Except.bind,
        ihl hll fuel stream (depth_lt_left hf)]
      rw [ihr hlr fuel (stream ++ l.elems ++ [e]) (depth_lt_right hf)]
      simp only [Tree.elems, List.append_assoc, List.singleton_append]

/-- The recursive `clone` of a tree laid out in the heap returns a tree with
the same content, laid out in freshly allocated cells. -/
theorem clone_of_layout :
    ∀ (t : Tree T) (s : AvlTree T), t.Layout s → ∀ fuel, t.depth < fuel →
      ∃ t2 ext, clone fuel s t.ptr = .ok (t2.ptr, s.extend ext) ∧
        t2.Layout (s.extend ext) ∧ t.Same t2 ∧ ∀ a ∈ t2.addrs, s.heap.length ≤ a := by
  intro t
  induction t with
  | nil =>
    intro s _ fuel hf
    cases fuel with
    | zero => simp [Tree.depth] at hf
    | succ fuel =>
      refine ⟨.nil, [], ?_, trivial, trivial, by simp [Tree.addrs]⟩
      simp [Tree.ptr, clone, AvlTree.extend]
  | node a l e c r ihl ihr =>
    intro s hlay fuel hf
    cases fuel with
    | zero => simp [Tree.depth] at hf
    | succ fuel =>
      obtain ⟨hcell, hll, hlr⟩ := hlay
      obtain ⟨l2, e1, hc1, hl2, hs1, hf1⟩ := ihl s hll fuel (depth_lt_left hf)
      obtain ⟨r2, e2, hc2, hr2, hs2, hf2⟩ :=
        ihr (s.extend e1) (layout_extend e1 r hlr) fuel (depth_lt_right hf)
      rw [extend_extend] at hc2 hr2
      have hlen1 : (s.extend e1).heap.length = s.heap.length + e1.length := by
        simp [AvlTree.extend]
      have hlen2 : (s.extend (e1 ++ e2)).heap.length = s.heap.length + (e1.length + e2.length) := by
        simp [AvlTree.extend]
      refine ⟨.node (s.extend (e1 ++ e2)).heap.length l2 e c r2,
        e1 ++ e2 ++ [some ⟨e, l2.ptr, r2.ptr, c⟩], ?_, ⟨?_, ?_, ?_⟩, ?_, ?_⟩
      · show clone (fuel + 1) s (some a) = _
        simp only [clone, load_of_cell hcell, bind, Except.bind, pure, Except.pure, hc1, hc2,
          AvlTree.alloc]
        simp only [Tree.ptr, AvlTree.extend, List.append_assoc]
      · rw [← extend_extend]
        exact cell_extend_new _ _
      · have := layout_extend (e2 ++ [some ⟨e, l2.ptr, r2.ptr, c⟩]) l2 hl2
        rw [extend_extend] at this
        simpa [List.append_assoc] using this
      · have := layout_extend [some ⟨e, l2.ptr, r2.ptr, c⟩] r2 hr2
        rw [extend_extend] at this
        exact this
      · exact ⟨rfl, rfl, hs1, hs2⟩
      · intro b hb
        simp only [Tree.addrs, List.mem_cons, List.mem_append] at hb
        rcases hb with hb | hb | hb
        · rw [hb, hlen2]; omega
        · exact hf1 b hb
        · have := hf2 b hb
          rw [hlen1] at this
          omega

/-- C14: on a tree laid out in the heap `clone` returns a pointer to a tree
of the same shape with the same element and the same cached height at every
position, held in cells that did not exist before; every cell that existed
before is unchanged, so the original is laid out as it was; the traversal and
the `isBalanced` verdict of the copy are those of the original. -/
theorem clone_correct (s : AvlTree T) (t : Tree T) (fuel : Nat)
    (hlay : t.Layout s) (hfuel : t.depth < fuel) :
    ∃ t2 s2, clone fuel s t.ptr = .ok (t2.ptr, s2) ∧
      t2.Layout s2 ∧ t.Same t2 ∧ (∀ a ∈ t2.addrs, s.heap.length ≤ a) ∧
      t.Layout s2 ∧ (∀ a, a < s.heap.length → s2.heap[a]? = s.heap[a]?) ∧
      s2.root = s.root ∧
      printTree s fuel t.ptr [] = .ok t.elems ∧ printTree s2 fuel t2.ptr [] = .ok t.elems ∧
      ∃ b, isBalanced s fuel t.ptr = .ok b ∧ isBalanced s2 fuel t2.ptr = .ok b := by
  obtain ⟨t2, ext, hc, hl2, hsame, hfresh⟩ := clone_of_layout t s hlay fuel hfuel
  have hd2 : t2.depth < fuel := by rw [same_depth t t2 hsame]; exact hfuel
  obtain ⟨b, hb, hbi⟩ := isBalanced_of_layout t hlay fuel hfuel
  obtain ⟨b2, hb2, hbi2⟩ := isBalanced_of_layout t2 hl2 fuel hd2
  have hbb : b2 = b := by
    have h : b2 = true ↔ b = true :=
      hbi2.trans ((same_cachedBalanced t t2 hsame).trans hbi.symm)
    cases b <;> cases b2 <;> simp_all
  refine ⟨t2, s.extend ext, hc, hl2, hsame, hfresh, layout_extend ext t hlay,
    fun a ha => cell_extend ha, rfl, ?_, ?_, b, hb, ?_⟩
  · simpa using printTree_of_layout t hlay fuel [] hfuel
  · have := printTree_of_layout t2 hl2 fuel [] hd2
    rw [same_elems t t2 hsame] at this
    simpa using this
  · rw [hb2, hbb]

theorem clone_correct_witness :
    ∃ t2 s2, clone 3 exThree exThreeTree.ptr = .ok (t2.ptr, s2) ∧
      t2.Layout s2 ∧ exThreeTree.Same t2 ∧ (∀ a ∈ t2.addrs, exThree.heap.length ≤ a) ∧
      exThreeTree.Layout s2 ∧ (∀ a, a < exThree.heap.length → s2.heap[a]? = exThree.heap[a]?) ∧
      s2.root = exThree.root ∧
      printTree exThree 3 exThreeTree.ptr [] = .ok exThreeTree.elems ∧
      printTree s2 3 t2.ptr [] = .ok exThreeTree.elems ∧
      ∃ b, isBalanced exThree 3 exThreeTree.ptr = .ok b ∧ isBalanced s2 3 t2.ptr = .ok b :=
  clone_correct exThree exThreeTree 3
    (by simp [Tree.Layout, exThree, exThreeTree, Tree.ptr])
    (by decide)

end Clone

end Avl
